import Mathlib

/-
Verification of the fs2cloud core pipeline against its specification.

The Rust sources are shallowly embedded as Lean definitions:

* bytes are modelled as natural numbers (u8 values), byte buffers as
  List Nat, and u64 machine integers as Nat with an explicit mod 2^64
  where wrap-around can matter;
* UUIDs (128-bit values produced by Uuid::new_v4) are modelled as Nat
  drawn from a fresh-counter supply carried in the state;
* the SQLite catalog is modelled as in-memory lists of rows; the SQL
  statement texts are not part of the source tree, so the row-level
  semantics of insert/select/update follow the specification (see the
  doc comments marked "Modelled from the spec");
* SHA-256 (the external sha2 crate) is a pure function of the byte
  stream fed to the hasher, so a digest value is represented by the
  stream itself: a stored digest field holds some s, standing for the
  hex digest of stream s, or none, standing for the empty string that
  the code stores when no digest could be computed;
* PGP encryption (the external sequoia crate) is a bijection on byte
  buffers applied below the envelope layer; stored objects are
  therefore modelled by the serialized envelope bytes themselves, and
  decryption failure is modelled by a parameter function returning
  none.
-/

namespace Fs2cloud

/-! ## ChunkedSha256 (src/hash.rs)

State of the out-of-order streaming hasher: next_block, the running
Sha256 accumulator (modelled by the list of bytes fed so far), and the
pending_blocks HashMap (modelled by an association list with distinct
keys, which is what a HashMap is once iteration order is irrelevant). -/

structure ChunkedSha256 where
  next_block : Nat
  hasher : List Nat
  pending_blocks : List (Nat × List Nat)
deriving DecidableEq, Repr

/-- Lookup in the pending_blocks map (HashMap::remove/get key search). -/
def pbFind (k : Nat) (l : List (Nat × List Nat)) : Option (List Nat) :=
  (l.find? (fun p => p.1 == k)).map (fun p => p.2)

/-- Removal from the pending_blocks map (HashMap::remove). -/
def pbRemove (k : Nat) (l : List (Nat × List Nat)) : List (Nat × List Nat) :=
  l.eraseP (fun p => p.1 == k)

/-- Insertion into the pending_blocks map (HashMap::insert replaces any
existing entry for the key). -/
def pbInsert (k : Nat) (v : List Nat) (l : List (Nat × List Nat)) :
    List (Nat × List Nat) :=
  (k, v) :: pbRemove k l

/-- The drain loop of ChunkedSha256::update: while pending_blocks
contains next_block, feed it to the accumulator and advance. Each
iteration removes one entry from the map, so pending.length is enough
fuel; the fuel makes the recursion structural. -/
def drainFuel : Nat → List Nat → Nat → List (Nat × List Nat) →
    List Nat × Nat × List (Nat × List Nat)
  | 0, h, n, pending => (h, n, pending)
  | fuel + 1, h, n, pending =>
    match pbFind n pending with
    | none => (h, n, pending)
    | some block => drainFuel fuel (h ++ block) (n + 1) (pbRemove n pending)

/-- ChunkedSha256::update (src/hash.rs lines 15-26). -/
def ChunkedSha256.update (s : ChunkedSha256) (data : List Nat)
    (block_index : Nat) : ChunkedSha256 :=
  if block_index > s.next_block then
    { s with pending_blocks := pbInsert block_index data s.pending_blocks }
  else
    let r := drainFuel s.pending_blocks.length (s.hasher ++ data)
      (s.next_block + 1) s.pending_blocks
    { hasher := r.1, next_block := r.2.1, pending_blocks := r.2.2 }

/-- ChunkedSha256::finalize (src/hash.rs lines 28-34): when no blocks
are pending it returns the digest of the accumulated stream (modelled
by the stream itself) and resets the accumulator (finalize_reset);
otherwise it returns None. -/
def ChunkedSha256.finalize (s : ChunkedSha256) :
    Option (List Nat) × ChunkedSha256 :=
  if s.pending_blocks.isEmpty then
    (some s.hasher, { s with hasher := [] })
  else
    (none, s)

/-- ChunkedSha256::new / Default (src/hash.rs lines 11-13, 37-45). -/
def ChunkedSha256.new : ChunkedSha256 :=
  { next_block := 0, hasher := [], pending_blocks := [] }

/-- Feeding a sequence of (bytes, block_index) pairs in order. -/
def ChunkedSha256.updates (s : ChunkedSha256)
    (feed : List (List Nat × Nat)) : ChunkedSha256 :=
  feed.foldl (fun s p => s.update p.1 p.2) s

/-! ## ClearChunk envelope (src/chunk.rs)

Metadata and ClearChunk mirror the structs of src/chunk.rs. The uuid
field of ClearChunk is marked serde(skip) in the source, so it is not
serialized and deserialization fills it with Uuid::default(), the nil
UUID, modelled by 0. Metadata.file is a String in the source; it is
modelled by its UTF-8 byte list. -/

structure Metadata where
  file : List Nat
  idx : Nat
  total : Nat
  offset : Nat
deriving DecidableEq, Repr

structure ClearChunk where
  version : Nat
  uuid : Nat
  metadata : Metadata
  payload : List Nat
deriving DecidableEq, Repr

/-- ClearChunk::new (src/chunk.rs lines 100-107) sets version to 1. -/
def ClearChunk.new (uuid : Nat) (metadata : Metadata) (payload : List Nat) :
    ClearChunk :=
  { version := 1, uuid := uuid, metadata := metadata, payload := payload }

/-- Little-endian fixed 8-byte encoding of a u64, as used by
bincode::serialize with its default fixint configuration. -/
def u64le (n : Nat) : List Nat :=
  [n % 256, n / 256 % 256, n / 256 ^ 2 % 256, n / 256 ^ 3 % 256,
   n / 256 ^ 4 % 256, n / 256 ^ 5 % 256, n / 256 ^ 6 % 256, n / 256 ^ 7 % 256]

/-- Little-endian fixed 8-byte decoding of a u64: returns the value and
the remaining bytes, or none when fewer than 8 bytes remain. -/
def readU64 : List Nat → Option (Nat × List Nat)
  | b0 :: b1 :: b2 :: b3 :: b4 :: b5 :: b6 :: b7 :: rest =>
    some (b0 % 256 + 256 * (b1 % 256) + 256 ^ 2 * (b2 % 256) +
      256 ^ 3 * (b3 % 256) + 256 ^ 4 * (b4 % 256) + 256 ^ 5 * (b5 % 256) +
      256 ^ 6 * (b6 % 256) + 256 ^ 7 * (b7 % 256), rest)
  | _ => none

/-- TryFrom for Vec of u8 (src/chunk.rs lines 194-201):
bincode::serialize of ClearChunk with the default options writes, in
order, the version byte, the file name as a u64 length followed by the
UTF-8 bytes, the three u64 fields idx, total, offset, and the payload
as a u64 length followed by the bytes. The serde-skipped uuid is not
written. -/
def ClearChunk.encode (c : ClearChunk) : List Nat :=
  c.version :: (u64le c.metadata.file.length ++ c.metadata.file ++
    u64le c.metadata.idx ++ u64le c.metadata.total ++
    u64le c.metadata.offset ++ u64le c.payload.length ++ c.payload)

/-- Result of ClearChunk::try_from on a byte vector. The source indexes
value[0] before anything else, which panics on an empty vector, and the
panicked outcome is modelled explicitly. -/
inductive DecodeResult
  | ok (c : ClearChunk)
  | err
  | panicked
deriving DecidableEq, Repr

/-- The bincode::deserialize part of TryFrom for ClearChunk: reads the
fields written by encode and fills the serde-skipped uuid with the nil
UUID (0). Trailing bytes are allowed, as by bincode's top-level
deserialize. UTF-8 validation of the file name is not modelled; it can
only turn an ok into an err on inputs no claim evaluates. -/
def bincodeDecode (v : List Nat) : Option ClearChunk :=
  match v with
  | [] => none
  | ver :: r0 =>
    match readU64 r0 with
    | none => none
    | some (flen, r1) =>
      if flen ≤ r1.length then
        match readU64 (r1.drop flen) with
        | none => none
        | some (idx, r2) =>
          match readU64 r2 with
          | none => none
          | some (total, r3) =>
            match readU64 r3 with
            | none => none
            | some (off, r4) =>
              match readU64 r4 with
              | none => none
              | some (plen, r5) =>
                if plen ≤ r5.length then
                  some { version := ver, uuid := 0,
                         metadata := { file := r1.take flen, idx := idx,
                                       total := total, offset := off },
                         payload := r5.take plen }
                else none
      else none

/-- TryFrom for ClearChunk (src/chunk.rs lines 203-213): value[0] is
read first (panics on the empty vector), a first byte other than 1
bails with the unsupported-version error, otherwise bincode
deserializes the envelope. -/
def ClearChunk.tryFrom (v : List Nat) : DecodeResult :=
  match v with
  | [] => .panicked
  | b :: _ =>
    if b ≠ 1 then .err
    else
      match bincodeDecode v with
      | some c => .ok c
      | none => .err

/-- RemoteEncryptedChunk::decrypt (src/chunk.rs lines 326-342): pgp
decryption failure bails with an error, but on success the decoded
envelope is obtained through unwrap, so a decode failure (or the
decode panic itself) panics. The pgp primitive is a parameter mapping
cipher bytes to clear bytes, none meaning decryption failure. -/
def RemoteEncryptedChunk.decrypt (pgp : List Nat → Option (List Nat))
    (payload : List Nat) : DecodeResult :=
  match pgp payload with
  | some clear =>
    match ClearChunk.tryFrom clear with
    | .ok c => .ok c
    | _ => .panicked
  | none => .err

/-! ## Catalog (src/file/repository.rs, src/chunk/repository.rs,
src/aggregate/repository.rs, src/fuse/fs/repository.rs)

Rows are modelled as structures and each repository table as the list
of its rows in insertion order. Path components are either ordinary
names or the synthetic tar names built from a fresh UUID by the crawl
planner, so the two kinds can never collide. The SQL statement texts
are not in the source tree; the row-level behaviour of each operation
is modelled from the spec (section 4.1). -/

inductive PathName
  | str (s : String)
  | tarUuid (n : Nat)
deriving DecidableEq, Repr

inductive Mode
  | Chunked
  | Aggregate
  | Aggregated
deriving DecidableEq, Repr

inductive Status
  | Pending
  | Done
deriving DecidableEq, Repr

structure FileRow where
  uuid : Nat
  path : List PathName
  size : Nat
  sha256 : Option (List Nat)
  chunks : Nat
  mode : Mode
  status : Status
deriving DecidableEq, Repr

structure ChunkRow where
  uuid : Nat
  file_uuid : Nat
  idx : Nat
  sha256 : Option (List Nat)
  offset : Nat
  size : Nat
  payload_size : Nat
  status : Status
deriving DecidableEq, Repr

structure AggregateRow where
  aggregate_path : List PathName
  file_path : List PathName
deriving DecidableEq, Repr

structure InodeRow where
  id : Nat
  parent_id : Nat
  file_uuid : Option Nat
  name : PathName
deriving DecidableEq, Repr

structure Catalog where
  files : List FileRow
  chunks : List ChunkRow
  aggregates : List AggregateRow
  inodes : List InodeRow
  next_inode_id : Nat
deriving DecidableEq, Repr

/-- Modelled from the spec: files.find_by_path returns the row whose
unique path column matches. -/
def Catalog.filesFindByPath (cat : Catalog) (p : List PathName) :
    Option FileRow :=
  cat.files.find? (fun f => f.path == p)

/-- Modelled from the spec: files.insert appends a row. -/
def Catalog.filesInsert (cat : Catalog) (f : FileRow) : Catalog :=
  { cat with files := cat.files ++ [f] }

/-- Row transformer of files.mark_done: set status Done and the digest
on the row with the given uuid. -/
def markFileF (uuid : Nat) (sha : Option (List Nat)) :
    FileRow → FileRow :=
  fun f =>
    if f.uuid == uuid then { f with status := .Done, sha256 := sha } else f

/-- Row transformer of chunks.mark_done: set status Done, the digest of
the clear payload, and the size column on the row with the given
uuid. -/
def markChunkF (uuid : Nat) (sha : Option (List Nat)) (size : Nat) :
    ChunkRow → ChunkRow :=
  fun c =>
    if c.uuid == uuid then
      { c with status := .Done, sha256 := sha, size := size }
    else c

/-- Modelled from the spec: files.mark_done sets status to Done and
records the file digest on the row with the given uuid. -/
def Catalog.filesMarkDone (cat : Catalog) (uuid : Nat)
    (sha : Option (List Nat)) : Catalog :=
  { cat with files := cat.files.map (markFileF uuid sha) }

/-- Modelled from the spec: chunks.find_by_file_uuid_and_index. -/
def Catalog.chunksFindByFileUuidAndIndex (cat : Catalog) (fu i : Nat) :
    Option ChunkRow :=
  cat.chunks.find? (fun c => c.file_uuid == fu && c.idx == i)

/-- Modelled from the spec: chunks.insert appends a row. -/
def Catalog.chunksInsert (cat : Catalog) (c : ChunkRow) : Catalog :=
  { cat with chunks := cat.chunks ++ [c] }

/-- Modelled from the spec: chunks.mark_done sets status, the digest of
the clear payload, and the size column on the row with the given
uuid. -/
def Catalog.chunksMarkDone (cat : Catalog) (uuid : Nat)
    (sha : Option (List Nat)) (size : Nat) : Catalog :=
  { cat with chunks := cat.chunks.map (markChunkF uuid sha size) }

/-- Modelled from the spec: chunks.find_by_file_uuid returns the chunk
rows of the file; the planner inserts them in index order, so for the
catalogs reachable here list order is index order. -/
def Catalog.chunksFindByFileUuid (cat : Catalog) (fu : Nat) :
    List ChunkRow :=
  cat.chunks.filter (fun c => c.file_uuid == fu)

/-- Modelled from the spec: chunks.find_by_file_uuid_and_status. -/
def Catalog.chunksFindByFileUuidAndStatus (cat : Catalog) (fu : Nat)
    (st : Status) : List ChunkRow :=
  cat.chunks.filter (fun c => c.file_uuid == fu && c.status == st)

/-- Modelled from the spec: aggregates.find_by_file_path. -/
def Catalog.aggregatesFindByFilePath (cat : Catalog) (p : List PathName) :
    Option AggregateRow :=
  cat.aggregates.find? (fun a => a.file_path == p)

/-- Modelled from the spec: aggregates.insert appends a link row. -/
def Catalog.aggregatesInsert (cat : Catalog) (a : AggregateRow) : Catalog :=
  { cat with aggregates := cat.aggregates ++ [a] }

/-- Modelled from the spec: inode lookup by parent and name. -/
def Catalog.findInodeByNameAndParent (cat : Catalog) (name : PathName)
    (parent : Nat) : Option InodeRow :=
  cat.inodes.find? (fun i => i.name == name && i.parent_id == parent)

/-- Modelled from the spec: insert_inode appends a row with the next id
of the u64 id sequence (0 is the implicit root). -/
def Catalog.insertInode (cat : Catalog) (name : PathName) (parent : Nat)
    (file_uuid : Option Nat) : Catalog :=
  { cat with
    inodes := cat.inodes ++
      [{ id := cat.next_inode_id, parent_id := parent,
         file_uuid := file_uuid, name := name }],
    next_inode_id := cat.next_inode_id + 1 }

/-- Repository::get_inode_by_name_and_parent_id
(src/fuse/fs/repository.rs lines 54-62): find the child, creating a
directory inode when absent (idempotent get-or-create). Returns the
child id and the updated catalog. -/
def Catalog.getOrCreateChild (cat : Catalog) (name : PathName)
    (parent : Nat) : Nat × Catalog :=
  match cat.findInodeByNameAndParent name parent with
  | some i => (i.id, cat)
  | none => (cat.next_inode_id, cat.insertInode name parent none)

/-- fuse::fs::insert (src/fuse/fs.rs lines 9-30): walk the parent path
components from the root (id 0), creating directory inodes on the way,
then insert the leaf inode carrying the file uuid. -/
def Catalog.fuseInsert (cat : Catalog) (uuid : Nat) (path : List PathName) :
    Catalog :=
  match path.getLast? with
  | none => cat
  | some leaf =>
    let r := path.dropLast.foldl
      (fun (acc : Nat × Catalog) comp => acc.2.getOrCreateChild comp acc.1)
      (0, cat)
    r.2.insertInode leaf r.1 (some uuid)

/-! ## Planner (src/controller/crawl.rs)

The depth-first walk is abstracted to the sequence of regular files it
visits: the tree is the list of (relative path, size) pairs in visit
order. The crawl state carries the catalog, the fresh-UUID supply
(Uuid::new_v4 calls), and the open aggregate group. -/

structure CrawlConfig where
  chunk_size : Nat
  aggregate_min_size : Nat
  aggregate_size : Nat
  ignored : List PathName → Bool

structure CrawlState where
  cat : Catalog
  next_uuid : Nat
  current_aggregate : Option (List PathName × Nat)
deriving Repr

/-- Number of chunks planned for a file: (size + chunk_size - 1) /
chunk_size computed in u64 arithmetic, so the sum wraps mod 2^64. -/
def chunksCount (chunk_size size : Nat) : Nat :=
  ((size + chunk_size - 1) % 2 ^ 64) / chunk_size

/-- Crawl::large_file (src/controller/crawl.rs lines 174-210): for each
missing index, insert a Pending chunk row with offset idx*chunk_size
and payload_size min(chunk_size, size - offset), consuming one fresh
uuid per inserted row. -/
def Crawl.large_file (cfg : CrawlConfig) (st : CrawlState) (fu : Nat)
    (filesize chunks_count : Nat) : CrawlState :=
  (List.range chunks_count).foldl
    (fun st i =>
      if (st.cat.chunksFindByFileUuidAndIndex fu i).isSome then st
      else
        { st with
          cat := st.cat.chunksInsert
            { uuid := st.next_uuid, file_uuid := fu, idx := i,
              sha256 := none, offset := i * cfg.chunk_size, size := 0,
              payload_size := min cfg.chunk_size (filesize - i * cfg.chunk_size),
              status := .Pending },
          next_uuid := st.next_uuid + 1 })
    st

/-- Crawl::get_aggregate_path's new_aggregate (src/controller/crawl.rs
lines 236-271): create a synthetic Aggregate file row with a fresh
uuid, a fresh tar path, chunks 1, size 0, plus its single all-zero
Pending chunk row. Three fresh uuids are consumed (file uuid, tar path
uuid, chunk uuid). -/
def Crawl.new_aggregate (st : CrawlState) (filesize : Nat) : CrawlState :=
  let fileUuid := st.next_uuid
  let tarPath := [PathName.tarUuid (st.next_uuid + 1)]
  let chunkUuid := st.next_uuid + 2
  { cat := ((st.cat.filesInsert
      { uuid := fileUuid, path := tarPath, size := 0, sha256 := none,
        chunks := 1, mode := .Aggregate, status := .Pending }).chunksInsert
      { uuid := chunkUuid, file_uuid := fileUuid, idx := 0, sha256 := none,
        offset := 0, size := 0, payload_size := 0, status := .Pending }),
    next_uuid := st.next_uuid + 3,
    current_aggregate := some (tarPath, filesize) }

/-- Crawl::get_aggregate_path (src/controller/crawl.rs lines 235-295):
open a new aggregate group when none is open or when adding the file
would exceed aggregate_size; otherwise grow the open group. Returns
the aggregate path. -/
def Crawl.get_aggregate_path (cfg : CrawlConfig) (st : CrawlState)
    (filesize : Nat) : List PathName × CrawlState :=
  match st.current_aggregate with
  | none =>
    let st' := Crawl.new_aggregate st filesize
    (st'.current_aggregate.map Prod.fst |>.getD [], st')
  | some a =>
    if a.2 + filesize > cfg.aggregate_size then
      let st' := Crawl.new_aggregate st filesize
      (st'.current_aggregate.map Prod.fst |>.getD [], st')
    else
      (a.1, { st with current_aggregate := some (a.1, a.2 + filesize) })

/-- Crawl::small_file (src/controller/crawl.rs lines 212-233): if the
file already has an aggregate link, do nothing; otherwise get the open
aggregate group (creating it if needed) and insert the link row. -/
def Crawl.small_file (cfg : CrawlConfig) (st : CrawlState)
    (filePath : List PathName) (filesize : Nat) : CrawlState :=
  if (st.cat.aggregatesFindByFilePath filePath).isSome then st
  else
    let r := Crawl.get_aggregate_path cfg st filesize
    let cat' := r.2.cat.aggregatesInsert
      { aggregate_path := r.1, file_path := filePath }
    { r.2 with cat := cat' }

/-- Crawl::visit_file (src/controller/crawl.rs lines 110-172): skip
ignored paths; reuse the File row found by path or create it (with its
inode chain) using a fresh uuid; then plan chunk rows (large_file) or
the aggregate membership (small_file) depending on the size. -/
def Crawl.visit_file (cfg : CrawlConfig) (st : CrawlState)
    (entry : List PathName × Nat) : CrawlState :=
  let path := entry.1
  let size := entry.2
  if cfg.ignored path then st
  else
    let cc := chunksCount cfg.chunk_size size
    let mode : Mode := if size < cfg.aggregate_min_size then .Aggregated
      else .Chunked
    let r : FileRow × CrawlState :=
      match st.cat.filesFindByPath path with
      | some f => (f, st)
      | none =>
        let f : FileRow :=
          { uuid := st.next_uuid, path := path, size := size,
            sha256 := none, chunks := cc, mode := mode, status := .Pending }
        (f, { st with
              cat := (st.cat.filesInsert f).fuseInsert f.uuid path,
              next_uuid := st.next_uuid + 1 })
    if size ≥ cfg.aggregate_min_size then
      Crawl.large_file cfg r.2 r.1.uuid size cc
    else
      Crawl.small_file cfg r.2 r.1.path size

/-- Crawl::execute (src/controller/crawl.rs lines 30-70): a run starts
with no open aggregate group and visits the tree's regular files in
walk order. -/
def Crawl.run (cfg : CrawlConfig) (tree : List (List PathName × Nat))
    (st : CrawlState) : CrawlState :=
  tree.foldl (Crawl.visit_file cfg) { st with current_aggregate := none }

/-! ## Object store

The store maps object uuids to stored bytes. The PGP encrypt layer
below the envelope is an external bijection on buffers, so stored
objects are modelled by the serialized envelope bytes themselves. -/

def storePut (s : List (Nat × List Nat)) (k : Nat) (v : List Nat) :
    List (Nat × List Nat) :=
  (k, v) :: s.eraseP (fun p => p.1 == k)

def storeGet (s : List (Nat × List Nat)) (k : Nat) : Option (List Nat) :=
  (s.find? (fun p => p.1 == k)).map (fun p => p.2)

/-- UTF-8 bytes of a path component; tar components render the uuid. -/
def pathNameBytes : PathName → List Nat
  | .str s => s.data.map Char.toNat
  | .tarUuid n => [116, 97, 114, n]

/-- UTF-8 bytes of a relative path, components joined by a slash. -/
def pathBytes (p : List PathName) : List Nat :=
  List.intercalate [47] (p.map pathNameBytes)

/-! ## Pusher (src/controller/push.rs, src/chunk.rs)

The processing phase of Push::execute (lines 108-143): enumerate the
Pending files, and for each one its Pending chunks, read the chunk's
clear slice from the source file, and run the
encrypt-upload-finalize job of src/chunk.rs. Jobs are modelled
sequentially in submission order; the worker pool interleaving only
permutes catalog write order across distinct files.

The walk prelude of Push::execute (lines 72-78), which re-plans the
tree exactly like crawl, is omitted: on a catalog already planned by
crawl with the same configuration it inserts nothing.

The source file contents are a parameter mapping a path to the file's
bytes (none when fs::File::open fails). The envelope metadata is built
as in ClearChunk::new with the offset of the chunk row; the call site
in push.rs predates the offset field of Metadata (src/chunk.rs), which
pull.rs reads back. The per-file ChunkedSha256 entry of the hashes map
is created fresh at the file's first processed chunk of the run. -/

structure PushAcc where
  cat : Catalog
  store : List (Nat × List Nat)
  uploads : List Nat
  hash : ChunkedSha256
deriving Repr

/-- Push::process_chunk (src/controller/push.rs lines 270-343) followed
by the submitted job (ClearChunk::push then ClearChunk::finalize,
src/chunk.rs lines 109-169): read the slice, skip the chunk on a short
read, otherwise upload the envelope under the chunk's uuid, mark the
chunk Done with the digest of its clear payload and the payload
length, feed the per-file hasher, and when every sibling is Done mark
the file Done with the hasher's digest (the empty string, modelled as
none, when the hasher is not ready). -/
def Push.process_chunk (f : FileRow) (content : List Nat) (acc : PushAcc)
    (c : ChunkRow) : PushAcc :=
  let data := (content.drop c.offset).take c.payload_size
  if data.length ≠ c.payload_size then acc
  else
    let env := ClearChunk.new c.uuid
      { file := pathBytes f.path, idx := c.idx, total := f.chunks,
        offset := c.offset } data
    let store' := storePut acc.store c.uuid env.encode
    let cat1 := acc.cat.chunksMarkDone c.uuid (some data) data.length
    let siblings := cat1.chunksFindByFileUuid c.file_uuid
    let hash' := acc.hash.update data c.idx
    if siblings.all (fun s => s.status == .Done) then
      { cat := cat1.filesMarkDone c.file_uuid hash'.finalize.1,
        store := store', uploads := acc.uploads ++ [c.uuid],
        hash := hash'.finalize.2 }
    else
      { cat := cat1, store := store', uploads := acc.uploads ++ [c.uuid],
        hash := hash' }

/-- One iteration of the file loop of Push::execute (lines 117-143):
fetch the file's Pending chunks, open the source (skipping the file
when that fails), and process each pending chunk. -/
def Push.process_file (fsrc : List PathName → Option (List Nat))
    (acc : PushAcc) (f : FileRow) : PushAcc :=
  let pending := acc.cat.chunksFindByFileUuidAndStatus f.uuid .Pending
  match fsrc f.path with
  | none => acc
  | some content =>
    pending.foldl (Push.process_chunk f content)
      { acc with hash := ChunkedSha256.new }

/-- The processing phase of Push::execute (src/controller/push.rs lines
108-143): all Pending files in list order. The uploads field collects
the uuids of the objects put to the store during the run, in upload
order. The tree-walk prelude of Push::execute (lines 69-107 and
visit_file lines 182-268) is modelled separately by Push.visit_file
and Push.walk below; Push.execute composes the two phases. Push.run on
its own describes runs in which the walk leaves the catalog unchanged,
that is, runs where every visited file's row and every one of its
planned chunk indices already exist. -/
def Push.run (fsrc : List PathName → Option (List Nat)) (cat : Catalog)
    (store : List (Nat × List Nat)) : PushAcc :=
  (cat.files.filter (fun f => f.status == .Pending)).foldl
    (Push.process_file fsrc)
    { cat := cat, store := store, uploads := [], hash := ChunkedSha256.new }

/-- Push::visit_file (src/controller/push.rs lines 182-268): skip
ignored paths; reuse the File row found by path or insert it (sha256
empty, chunks (size + chunk_size - 1) / chunk_size, then the inode
chain) with a fresh uuid; then, with no mode or size branch, insert a
Pending chunk row for every missing index below chunks_count. The
chunk loop (lines 231-266) is the same insert-if-missing loop as
Crawl::large_file, with identical offset and payload_size arithmetic,
so it is modelled by Crawl.large_file. The snapshot's call to
files.insert passes no mode argument (it predates the mode column);
the model records Chunked, and no modelled operation reads the mode of
a push-inserted row. -/
def Push.visit_file (cfg : CrawlConfig) (st : CrawlState)
    (entry : List PathName × Nat) : CrawlState :=
  let path := entry.1
  let size := entry.2
  if cfg.ignored path then st
  else
    let cc := chunksCount cfg.chunk_size size
    let r : FileRow × CrawlState :=
      match st.cat.filesFindByPath path with
      | some f => (f, st)
      | none =>
        let f : FileRow :=
          { uuid := st.next_uuid, path := path, size := size,
            sha256 := none, chunks := cc, mode := .Chunked,
            status := .Pending }
        (f, { st with
              cat := (st.cat.filesInsert f).fuseInsert f.uuid path,
              next_uuid := st.next_uuid + 1 })
    Crawl.large_file cfg r.2 r.1.uuid size cc

/-- The tree-walk prelude of Push::execute (src/controller/push.rs
lines 69-79 with visit_dir/visit_path, lines 146-180): visit the
tree's regular files in walk order. -/
def Push.walk (cfg : CrawlConfig) (tree : List (List PathName × Nat))
    (st : CrawlState) : CrawlState :=
  tree.foldl (Push.visit_file cfg) st

/-- Push::execute in full (src/controller/push.rs lines 69-143): the
tree-walk prelude followed by the processing phase over the walked
catalog. Returns the crawl-level state (catalog and fresh-uuid
counter) and the processing accumulator. -/
def Push.execute (cfg : CrawlConfig) (tree : List (List PathName × Nat))
    (fsrc : List PathName → Option (List Nat)) (st : CrawlState)
    (store : List (Nat × List Nat)) : CrawlState × PushAcc :=
  let st1 := Push.walk cfg tree st
  let acc := Push.run fsrc st1.cat store
  ({ st1 with cat := acc.cat }, acc)

/-! ## Whole-system operations for the catalog invariants -/

structure SysState where
  st : CrawlState
  store : List (Nat × List Nat)
deriving Repr

inductive Op
  | crawl
  | push
deriving DecidableEq, Repr

def applyOp (cfg : CrawlConfig) (tree : List (List PathName × Nat))
    (fsrc : List PathName → Option (List Nat)) (s : SysState) : Op → SysState
  | .crawl => { s with st := Crawl.run cfg tree s.st }
  | .push =>
    let r := Push.execute cfg tree fsrc s.st s.store
    { st := r.1, store := r.2.store }

def emptyCatalog : Catalog :=
  { files := [], chunks := [], aggregates := [], inodes := [],
    next_inode_id := 1 }

def emptySys : SysState :=
  { st := { cat := emptyCatalog, next_uuid := 0, current_aggregate := none },
    store := [] }

def runOps (cfg : CrawlConfig) (tree : List (List PathName × Nat))
    (fsrc : List PathName → Option (List Nat)) (ops : List Op) : SysState :=
  ops.foldl (applyOp cfg tree fsrc) emptySys

/-! ## Puller (src/controller/pull.rs)

Pull::process_chunked_file (lines 206-250): for each chunk row of the
file a pool job downloads a stored object, decodes it and sends the
envelope's own offset and payload to the writer. The source captures
the file's uuid (let uuid = file.uuid, line 225) and calls
store.get(uuid) for every chunk, which the model mirrors exactly. A
failed job logs and sends nothing (a panicking unwrap also sends
nothing), modelled as none. -/

def Pull.process_chunked_file (store : List (Nat × List Nat))
    (file : FileRow) (chunkRows : List ChunkRow) :
    List (Option (Nat × List Nat)) :=
  chunkRows.map (fun _ =>
    match storeGet store file.uuid with
    | none => none
    | some bytes =>
      match ClearChunk.tryFrom bytes with
      | .ok env => some (env.metadata.offset, env.payload)
      | _ => none)

/-- The writer thread (src/controller/pull.rs lines 76-92): seek to the
message's offset and write the payload there; seeking past the end of
the sparse file extends it with zeros. -/
def writeAt (buf : List Nat) (off : Nat) (p : List Nat) : List Nat :=
  buf.take off ++ List.replicate (off - buf.length) 0 ++ p ++
    buf.drop (off + p.length)

/-- Pull of a Chunked file: create_file makes a zero (sparse) file of
the recorded size, then the writer applies every received message. -/
def Pull.restore (store : List (Nat × List Nat)) (file : FileRow)
    (chunkRows : List ChunkRow) : List Nat :=
  (Pull.process_chunked_file store file chunkRows).foldl
    (fun buf m => match m with
      | some op => writeAt buf op.1 op.2
      | none => buf)
    (List.replicate file.size 0)

/-! ## FSView read path (src/controller/mount.rs)

Fs2CloudFS::read_chunked (lines 216-271). The fetch parameter stands
for read_chunk (lines 209-214): get the stored object by the chunk
row's uuid, decode, and take the payload; the claim's premise is that
every fetch succeeds and yields the chunk's slice of the content. -/

def Fs2CloudFS.read_chunked_go (fetch : Nat → List Nat)
    (rows : List ChunkRow) (offset size : Nat) (data : List Nat) :
    List Nat :=
  match rows with
  | [] => data
  | c :: rest =>
    if offset > c.payload_size then
      Fs2CloudFS.read_chunked_go fetch rest (offset - c.payload_size) size data
    else if data.length ≥ size then data
    else
      let d1 := data ++ fetch c.uuid
      let d2 := if offset > 0 then d1.drop offset else d1
      Fs2CloudFS.read_chunked_go fetch rest 0 size d2

/-- Fs2CloudFS::read_chunked: run the loop over the file's chunk rows
and return the first min(buffer length, size) bytes. -/
def Fs2CloudFS.read_chunked (fetch : Nat → List Nat)
    (rows : List ChunkRow) (offset size : Nat) : List Nat :=
  let d := Fs2CloudFS.read_chunked_go fetch rows offset size []
  d.take (min d.length size)

/-! ## Concrete instances used by the witnesses and counterexamples -/

/-- An envelope with a non-nil uuid, as every pushed chunk has. -/
def cEx8 : ClearChunk :=
  ClearChunk.new 5 { file := [97], idx := 0, total := 1, offset := 0 } [7, 8]

/-- A pgp primitive whose decryption always succeeds and returns an
invalid envelope. -/
def pgpBad : List Nat → Option (List Nat) := fun _ => some [2, 0]

/-- A pgp primitive whose decryption always fails. -/
def pgpFail : List Nat → Option (List Nat) := fun _ => none

/-- Configuration of the concrete pipeline runs: chunk size 2, no
aggregation, nothing ignored. -/
def cfgEx : CrawlConfig :=
  { chunk_size := 2, aggregate_min_size := 0, aggregate_size := 10,
    ignored := fun _ => false }

/-- A tree holding one regular file of 3 bytes. -/
def treeEx : List (List PathName × Nat) := [([.str "a", .str "b.bin"], 3)]

/-- Contents of the tree's one file. -/
def fsrcEx : List PathName → Option (List Nat) := fun p =>
  if p = [PathName.str "a", PathName.str "b.bin"] then some [10, 11, 12]
  else none

/-- A tree holding one empty regular file. -/
def treeEmpty : List (List PathName × Nat) := [([.str "e"], 0)]

/-- Contents for the empty-file tree. -/
def fsrcEmpty : List PathName → Option (List Nat) := fun p =>
  if p = [PathName.str "e"] then some [] else none

/-- Configuration for the aggregate scenario: three small files below
aggregate_min_size end up in one aggregate group. -/
def cfgAg : CrawlConfig :=
  { chunk_size := 100, aggregate_min_size := 50, aggregate_size := 200,
    ignored := fun _ => false }

/-- The aggregate scenario's tree: three files of 10 bytes. -/
def treeAg : List (List PathName × Nat) :=
  [([.str "x"], 10), ([.str "y"], 10), ([.str "z"], 10)]

/-- Contents for the aggregate scenario's tree; the synthetic tar path
of the aggregate file does not exist on disk. -/
def fsrcAg : List PathName → Option (List Nat) := fun p =>
  if p = [PathName.str "x"] then some (List.replicate 10 1)
  else if p = [PathName.str "y"] then some (List.replicate 10 2)
  else if p = [PathName.str "z"] then some (List.replicate 10 3)
  else none

/-- The resumed-push scenario: a catalog holding one Chunked file of
three 1-byte chunks whose first chunk is already Done from an earlier
terminated run. -/
def fileResume : FileRow :=
  { uuid := 0, path := [.str "r"], size := 3, sha256 := none, chunks := 3,
    mode := .Chunked, status := .Pending }

def chunksResume : List ChunkRow :=
  [{ uuid := 1, file_uuid := 0, idx := 0, sha256 := some [20], offset := 0,
     size := 1, payload_size := 1, status := .Done },
   { uuid := 2, file_uuid := 0, idx := 1, sha256 := none, offset := 1,
     size := 0, payload_size := 1, status := .Pending },
   { uuid := 3, file_uuid := 0, idx := 2, sha256 := none, offset := 2,
     size := 0, payload_size := 1, status := .Pending }]

def catResume : Catalog :=
  { files := [fileResume], chunks := chunksResume, aggregates := [],
    inodes := [], next_inode_id := 1 }

def fsrcResume : List PathName → Option (List Nat) := fun p =>
  if p = [PathName.str "r"] then some [20, 21, 22] else none

/-- Chunk rows for the mounted-read witness: three chunks of sizes 2,
2, 1 over a 5-byte file. -/
def rowsRead : List ChunkRow :=
  [{ uuid := 100, file_uuid := 1, idx := 0, sha256 := none, offset := 0,
     size := 0, payload_size := 2, status := .Done },
   { uuid := 101, file_uuid := 1, idx := 1, sha256 := none, offset := 2,
     size := 0, payload_size := 2, status := .Done },
   { uuid := 102, file_uuid := 1, idx := 2, sha256 := none, offset := 4,
     size := 0, payload_size := 1, status := .Done }]

def fetchRead : Nat → List Nat := fun u =>
  if u = 100 then [0, 1] else if u = 101 then [2, 3] else [4]

/-- Blocks of the hasher witness: a partition of the byte string
1, 2, 3 into three blocks, one empty. -/
def blocksW : List (List Nat) := [[1], [2, 3], []]

/-- A permuted feeding order of blocksW. -/
def feedW : List (List Nat × Nat) := [([2, 3], 1), ([], 2), ([1], 0)]

/-- The file row of the single-file scenario after one crawl and one
push: marked Done with the digest of its three source bytes. -/
def fileDoneEx : FileRow :=
  { uuid := 0, path := [.str "a", .str "b.bin"], size := 3,
    sha256 := some [10, 11, 12], chunks := 2, mode := .Chunked,
    status := .Done }

/-- The first chunk row of the single-file scenario after one crawl and
one push. -/
def chunkDoneEx : ChunkRow :=
  { uuid := 1, file_uuid := 0, idx := 0, sha256 := some [10, 11],
    offset := 0, size := 2, payload_size := 2, status := .Done }

/-- The file row the crawler plans for the zero-size file of
treeEmpty: Chunked mode with zero chunk rows. -/
def fileZeroEx : FileRow :=
  { uuid := 0, path := [.str "e"], size := 0, sha256 := none,
    chunks := 0, mode := .Chunked, status := .Pending }

/-- The single-file scenario after one crawl and one push, starting
from an empty store. -/
def pushEx : PushAcc :=
  Push.run fsrcEx (Crawl.run cfgEx treeEx emptySys.st).cat []

/-- The aggregate scenario after one crawl and one full push (walk
prelude and processing phase), starting from an empty store. -/
def pushAgFull : CrawlState × PushAcc :=
  Push.execute cfgAg treeAg fsrcAg (Crawl.run cfgAg treeAg emptySys.st) []

/-- The chunk row inserted by Crawl::large_file for index i of a file
with the given uuid, starting from the fresh-uuid counter nu. -/
def plannedChunk (cfg : CrawlConfig) (nu u filesize i : Nat) : ChunkRow :=
  { uuid := nu + i, file_uuid := u, idx := i, sha256 := none,
    offset := i * cfg.chunk_size, size := 0,
    payload_size := min cfg.chunk_size (filesize - i * cfg.chunk_size),
    status := .Pending }

/-! ## Invariant predicates used by the proofs -/

/-- Invariant of the ChunkedSha256 state after feeding, in any order,
the blocks whose indices are listed in fed: the accumulator holds the
flattening of the first next_block blocks, every index below
next_block was fed, next_block itself was not, and the pending map
holds exactly the fed indices at or above next_block, each bound to
its block. -/
def HashInv (blocks : List (List Nat)) (fed : List Nat)
    (s : ChunkedSha256) : Prop :=
  s.hasher = (blocks.take s.next_block).flatten ∧
  (∀ k, k < s.next_block → k ∈ fed) ∧
  s.next_block ∉ fed ∧
  (∀ k v, pbFind k s.pending_blocks = some v ↔
    (k ∈ fed ∧ s.next_block ≤ k ∧ v = blocks.getD k [])) ∧
  (s.pending_blocks.map Prod.fst).Nodup

/-- The catalog extension order: crawl only appends rows to the files,
chunks and aggregates tables. -/
def CatExtends (cat cat' : Catalog) : Prop :=
  (∃ l, cat'.files = cat.files ++ l) ∧
  (∃ l, cat'.chunks = cat.chunks ++ l) ∧
  (∃ l, cat'.aggregates = cat.aggregates ++ l)

/-- A tree entry is fully planned in a catalog: it is ignored, or its
File row exists and, depending on the size branch, either every chunk
index is present or its aggregate link is present. A visit of such an
entry is a no-op. -/
def VisitDone (cfg : CrawlConfig) (cat : Catalog)
    (e : List PathName × Nat) : Prop :=
  cfg.ignored e.1 = true ∨
  ∃ f, cat.filesFindByPath e.1 = some f ∧
    (cfg.aggregate_min_size ≤ e.2 →
      ∀ i < chunksCount cfg.chunk_size e.2,
        (cat.chunksFindByFileUuidAndIndex f.uuid i).isSome = true) ∧
    (e.2 < cfg.aggregate_min_size →
      (cat.aggregatesFindByFilePath e.1).isSome = true)

/-- The synthetic Aggregate file row created by new_aggregate from the
fresh-uuid counter nu. -/
def aggFileRow (nu : Nat) : FileRow :=
  { uuid := nu, path := [.tarUuid (nu + 1)], size := 0, sha256 := none,
    chunks := 1, mode := .Aggregate, status := .Pending }

/-- The single chunk row created by new_aggregate. -/
def aggChunkRow (nu : Nat) : ChunkRow :=
  { uuid := nu + 2, file_uuid := nu, idx := 0, sha256 := none, offset := 0,
    size := 0, payload_size := 0, status := .Pending }

/-- The status invariant relating file and chunk rows: a Done file has
all its chunk rows Done, and a file owning at least one chunk row all
of whose chunk rows are Done is itself Done. -/
def StatusInv (cat : Catalog) : Prop :=
  (∀ f ∈ cat.files, f.status = Status.Done →
    ∀ c ∈ cat.chunks, c.file_uuid = f.uuid → c.status = Status.Done) ∧
  (∀ f ∈ cat.files,
    (∃ c ∈ cat.chunks, c.file_uuid = f.uuid) →
    (∀ c ∈ cat.chunks, c.file_uuid = f.uuid → c.status = Status.Done) →
    f.status = Status.Done)

/-- Every row is Pending, as after a crawl of a fresh catalog. -/
def AllPending (cat : Catalog) : Prop :=
  (∀ f ∈ cat.files, f.status = Status.Pending) ∧
  (∀ c ∈ cat.chunks, c.status = Status.Pending)

/-- Uuid discipline of the catalog: every uuid is below the fresh-uuid
counter and the row uuids are pairwise distinct. -/
def UuidWF (cat : Catalog) (nu : Nat) : Prop :=
  (∀ f ∈ cat.files, f.uuid < nu) ∧
  (∀ c ∈ cat.chunks, c.uuid < nu ∧ c.file_uuid < nu) ∧
  ((cat.files.map (fun f => f.uuid)).Nodup) ∧
  ((cat.chunks.map (fun c => c.uuid)).Nodup)

/-- A file-row transformer that only touches status and sha256. -/
def FileShapeF (F : FileRow → FileRow) : Prop :=
  ∀ g, (F g).uuid = g.uuid ∧ (F g).path = g.path ∧ (F g).size = g.size ∧
    (F g).chunks = g.chunks ∧ (F g).mode = g.mode

/-- A chunk-row transformer that only touches status, sha256 and the
cipher size column. -/
def ChunkShapeF (H : ChunkRow → ChunkRow) : Prop :=
  ∀ c, (H c).uuid = c.uuid ∧ (H c).file_uuid = c.file_uuid ∧
    (H c).idx = c.idx ∧ (H c).offset = c.offset ∧
    (H c).payload_size = c.payload_size

/-- What push does to a catalog: it maps the file and chunk rows
through shape-preserving transformers and leaves the aggregates
alone. -/
def PushReach (cat cat' : Catalog) : Prop :=
  ∃ F H, FileShapeF F ∧ ChunkShapeF H ∧
    cat'.files = cat.files.map F ∧ cat'.chunks = cat.chunks.map H ∧
    cat'.aggregates = cat.aggregates

/-- A tree entry is fully chunk-planned in a catalog: it is ignored, or
its File row exists and every chunk index below its planned count is
present. This is what Push::visit_file guarantees (it has no mode or
size branch), and a push visit of such an entry is a no-op. -/
def WalkDone (cfg : CrawlConfig) (cat : Catalog)
    (e : List PathName × Nat) : Prop :=
  cfg.ignored e.1 = true ∨
  ∃ f, cat.filesFindByPath e.1 = some f ∧
    ∀ i < chunksCount cfg.chunk_size e.2,
      (cat.chunksFindByFileUuidAndIndex f.uuid i).isSome = true

/-- Every Done file row sitting at a non-ignored tree path already has
all of its planned chunk indices, so neither crawl's large_file pass
nor push's walk ever inserts a fresh Pending chunk row under a Done
file. -/
def DoneComplete (cfg : CrawlConfig) (tree : List (List PathName × Nat))
    (cat : Catalog) : Prop :=
  ∀ e ∈ tree, cfg.ignored e.1 = false →
    ∀ f, cat.filesFindByPath e.1 = some f → f.status = Status.Done →
      ∀ i < chunksCount cfg.chunk_size e.2,
        (cat.chunksFindByFileUuidAndIndex f.uuid i).isSome = true

/-- What one planner visit (crawl's or push's) does to a catalog: it
appends rows, and every appended file row is Pending. -/
def PendExt (cat cat' : Catalog) : Prop :=
  CatExtends cat cat' ∧
  ∀ g ∈ cat'.files, g ∈ cat.files ∨ g.status = Status.Pending

/-- Invariant of the whole-system operation fold: the status invariant,
the uuid discipline, and chunk-completeness of every Done file at a
tree path. -/
def GoodState (cfg : CrawlConfig) (tree : List (List PathName × Nat))
    (s : SysState) : Prop :=
  StatusInv s.st.cat ∧ UuidWF s.st.cat s.st.next_uuid ∧
    DoneComplete cfg tree s.st.cat

/-! ## Lemmas and claim theorems -/

theorem readU64_u64le (n : Nat) (rest : List Nat) (h : n < 2 ^ 64) :
    readU64 (u64le n ++ rest) = some (n, rest) := by
  simp only [u64le, List.cons_append, List.nil_append, readU64]
  refine congrArg some (Prod.ext ?_ rfl)
  simp only
  omega

theorem bincodeDecode_encode (c : ClearChunk)
    (hf : c.metadata.file.length < 2 ^ 64) (hi : c.metadata.idx < 2 ^ 64)
    (ht : c.metadata.total < 2 ^ 64) (ho : c.metadata.offset < 2 ^ 64)
    (hp : c.payload.length < 2 ^ 64) :
    bincodeDecode c.encode = some { c with uuid := 0 } := by
  obtain ⟨ver, uu, ⟨mf, mi, mt, mo⟩, pl⟩ := c
  simp only at hf hi ht ho hp
  simp only [ClearChunk.encode, bincodeDecode, List.append_assoc]
  rw [readU64_u64le _ _ hf]
  simp only
  rw [if_pos (by simp [List.length_append])]
  rw [List.drop_left, List.take_left, readU64_u64le _ _ hi]
  simp only
  rw [readU64_u64le _ _ ht]
  simp only
  rw [readU64_u64le _ _ ho]
  simp only
  rw [readU64_u64le _ _ hp]
  simp only
  rw [if_pos (Nat.le_refl _), List.take_length]

/-- C8 counterexample: the claim that decoding an encoded ClearChunk
yields it back with all fields equal fails at an envelope with a
non-nil uuid, because the uuid field is serde(skip)ped by the encoder
and reset to the nil UUID by the decoder. -/
theorem envelope_roundtrip_not_identity :
    ClearChunk.tryFrom cEx8.encode ≠ DecodeResult.ok cEx8 := by
  decide

/-- C8 (amended): for every ClearChunk with version 1 (the only version
the constructor produces) and u64-representable fields, decoding the
encoding returns the same envelope with the serde-skipped uuid reset
to the nil UUID; and decoding any vector whose first byte is not 1
returns the unsupported-version error. -/
theorem envelope_roundtrip_modulo_uuid (c : ClearChunk)
    (hv : c.version = 1)
    (hf : c.metadata.file.length < 2 ^ 64) (hi : c.metadata.idx < 2 ^ 64)
    (ht : c.metadata.total < 2 ^ 64) (ho : c.metadata.offset < 2 ^ 64)
    (hp : c.payload.length < 2 ^ 64) :
    ClearChunk.tryFrom c.encode = DecodeResult.ok { c with uuid := 0 } ∧
      ∀ (b : Nat) (v : List Nat), b ≠ 1 →
        ClearChunk.tryFrom (b :: v) = DecodeResult.err := by
  constructor
  · have henc : c.encode = 1 :: (u64le c.metadata.file.length ++
        c.metadata.file ++ u64le c.metadata.idx ++ u64le c.metadata.total ++
        u64le c.metadata.offset ++ u64le c.payload.length ++ c.payload) := by
      rw [ClearChunk.encode, hv]
    rw [henc]
    simp only [ClearChunk.tryFrom]
    rw [if_neg (by simp), ← henc, bincodeDecode_encode c hf hi ht ho hp]
  · intro b v hb
    simp only [ClearChunk.tryFrom]
    rw [if_pos hb]

/-- C8 witness: the round trip and the version rejection evaluated at
the concrete envelope cEx8 and the concrete vector with head 2. -/
theorem envelope_roundtrip_modulo_uuid_witness :
    ClearChunk.tryFrom cEx8.encode = DecodeResult.ok { cEx8 with uuid := 0 } ∧
      ClearChunk.tryFrom [2, 0] = DecodeResult.err := by
  have h := envelope_roundtrip_modulo_uuid cEx8 rfl (by decide) (by decide)
    (by decide) (by decide) (by decide)
  exact ⟨h.1, h.2 2 [0] (by decide)⟩

/-- C10 counterexample: ClearChunk::try_from reads value[0] before
anything else and so panics on the empty vector instead of returning
Ok or Err; and RemoteEncryptedChunk::decrypt unwraps the decode of the
decrypted bytes, so a decode failure panics instead of propagating as
an error. -/
theorem tryfrom_empty_and_decrypt_decode_panic :
    ClearChunk.tryFrom [] = DecodeResult.panicked ∧
      RemoteEncryptedChunk.decrypt pgpBad [9] = DecodeResult.panicked := by
  decide

/-- C10 (amended): decoding is total over non-empty vectors (Ok or Err,
never a panic), and decrypt propagates a pgp decryption failure as an
error; but decoding the empty vector panics, and a decode failure of
successfully decrypted bytes panics in the unwrap. -/
theorem tryfrom_nonempty_total_decrypt_err (v : List Nat) (hv : v ≠ [])
    (pgp : List Nat → Option (List Nat)) (payload : List Nat)
    (hfail : pgp payload = none) :
    ClearChunk.tryFrom v ≠ DecodeResult.panicked ∧
      RemoteEncryptedChunk.decrypt pgp payload = DecodeResult.err := by
  constructor
  · match v, hv with
    | b :: rest, _ =>
      simp only [ClearChunk.tryFrom]
      by_cases hb : b ≠ 1
      · rw [if_pos hb]
        intro h
        exact DecodeResult.noConfusion h
      · rw [if_neg hb]
        cases bincodeDecode (b :: rest) with
        | none => intro h; exact DecodeResult.noConfusion h
        | some c => intro h; exact DecodeResult.noConfusion h
  · rw [RemoteEncryptedChunk.decrypt.eq_def, hfail]

/-- C10 witness: totality and error propagation evaluated at the
concrete vector with head 2 and the always-failing pgp primitive. -/
theorem tryfrom_nonempty_total_decrypt_err_witness :
    ClearChunk.tryFrom [2, 0] ≠ DecodeResult.panicked ∧
      RemoteEncryptedChunk.decrypt pgpFail [9] = DecodeResult.err :=
  tryfrom_nonempty_total_decrypt_err [2, 0] (by decide) pgpFail [9] rfl

theorem take_min_length {α : Type} (d : List α) (size : Nat) :
    d.take (min d.length size) = d.take size := by
  rcases Nat.le_total size d.length with h | h
  · rw [Nat.min_eq_right h]
  · rw [Nat.min_eq_left h, List.take_length, List.take_of_length_le h]

theorem read_chunked_go_zero (fetch : Nat → List Nat) (rows : List ChunkRow)
    (size : Nat) (data : List Nat) :
    (Fs2CloudFS.read_chunked_go fetch rows 0 size data).take size =
      (data ++ (rows.map (fun c => fetch c.uuid)).flatten).take size := by
  induction rows generalizing data with
  | nil => simp [Fs2CloudFS.read_chunked_go]
  | cons c rest ih =>
    rw [Fs2CloudFS.read_chunked_go]
    rw [if_neg (by omega)]
    by_cases hsz : data.length ≥ size
    · rw [if_pos hsz, List.take_append_of_le_length hsz]
    · rw [if_neg hsz]
      simp only [gt_iff_lt, Nat.lt_irrefl, if_false]
      rw [ih (data ++ fetch c.uuid)]
      simp [List.append_assoc]

theorem drop_append_ge {α : Type} (l₁ l₂ : List α) (n : Nat)
    (h : l₁.length ≤ n) : (l₁ ++ l₂).drop n = l₂.drop (n - l₁.length) := by
  obtain ⟨k, rfl⟩ : ∃ k, n = l₁.length + k := ⟨n - l₁.length, by omega⟩
  rw [List.drop_append]
  congr 1
  omega

theorem read_chunked_go_skip (fetch : Nat → List Nat) (rows : List ChunkRow)
    (offset size : Nat)
    (hlen : ∀ c ∈ rows, (fetch c.uuid).length = c.payload_size) :
    (Fs2CloudFS.read_chunked_go fetch rows offset size []).take size =
      (((rows.map (fun c => fetch c.uuid)).flatten).drop offset).take size := by
  induction rows generalizing offset with
  | nil => simp [Fs2CloudFS.read_chunked_go]
  | cons c rest ih =>
    have hc : (fetch c.uuid).length = c.payload_size :=
      hlen c (List.mem_cons_self c rest)
    have hrest : ∀ x ∈ rest, (fetch x.uuid).length = x.payload_size :=
      fun x hx => hlen x (List.mem_cons_of_mem c hx)
    rw [Fs2CloudFS.read_chunked_go]
    by_cases hskip : offset > c.payload_size
    · rw [if_pos hskip, ih (offset - c.payload_size) hrest]
      simp only [List.map_cons, List.flatten_cons]
      rw [drop_append_ge _ _ _ (by omega), hc]
    · rw [if_neg hskip]
      by_cases hsz : (0 : Nat) ≥ size
      · have hsize : size = 0 := by omega
        rw [if_pos (by simpa using hsz)]
        simp [hsize]
      · rw [if_neg (by simpa using hsz)]
        simp only [List.nil_append]
        by_cases h0 : offset > 0
        · rw [if_pos h0, read_chunked_go_zero]
          simp only [List.map_cons, List.flatten_cons]
          rw [List.drop_append_of_le_length (by omega)]
        · have h0' : offset = 0 := by omega
          subst h0'
          rw [if_neg (by omega), read_chunked_go_zero]
          simp only [List.map_cons, List.flatten_cons, List.drop_zero]

/-- C7: for chunk rows enumerated in order whose fetched clear payloads
have the recorded payload sizes and concatenate to the file content,
the mounted read at any offset within the file returns exactly the
content bytes from offset for size bytes, that is the byte range from
offset to min(offset + size, file size). -/
theorem read_chunked_returns_requested_bytes (fetch : Nat → List Nat)
    (rows : List ChunkRow) (offset size : Nat)
    (hlen : ∀ c ∈ rows, (fetch c.uuid).length = c.payload_size)
    (hoff : offset ≤ ((rows.map (fun c => fetch c.uuid)).flatten).length) :
    Fs2CloudFS.read_chunked fetch rows offset size =
      (((rows.map (fun c => fetch c.uuid)).flatten).drop offset).take size := by
  rw [Fs2CloudFS.read_chunked]
  rw [take_min_length]
  exact read_chunked_go_skip fetch rows offset size hlen

/-- C7 witness: reading 10 bytes from offset 3 of the 5-byte content
spread over the three concrete chunk rows returns bytes 3 and 4. -/
theorem read_chunked_returns_requested_bytes_witness :
    Fs2CloudFS.read_chunked fetchRead rowsRead 3 10 =
      ((((rowsRead.map (fun c => fetchRead c.uuid))).flatten).drop 3).take 10 :=
  read_chunked_returns_requested_bytes fetchRead rowsRead 3 10 (by decide)
    (by decide)

theorem pbFind_mem {l : List (Nat × List Nat)} {k : Nat} {v : List Nat}
    (h : pbFind k l = some v) : (k, v) ∈ l := by
  rw [pbFind] at h
  cases hf : l.find? (fun p => p.1 == k) with
  | none => rw [hf] at h; exact absurd h (by simp)
  | some p =>
    rw [hf] at h
    have hp := List.find?_some hf
    have hmem := List.mem_of_find?_eq_some hf
    obtain ⟨a, b⟩ := p
    simp only [Option.map_some', Option.some.injEq] at h
    simp only [beq_iff_eq] at hp
    subst hp
    subst h
    exact hmem

theorem mem_pbFind {l : List (Nat × List Nat)}
    (hnd : (l.map Prod.fst).Nodup) {k : Nat} {v : List Nat}
    (h : (k, v) ∈ l) : pbFind k l = some v := by
  induction l with
  | nil => simp at h
  | cons p t ih =>
    obtain ⟨a, b⟩ := p
    simp only [List.map_cons, List.nodup_cons] at hnd
    rcases List.mem_cons.mp h with h1 | h1
    · obtain ⟨rfl, rfl⟩ := Prod.mk.injEq a b k v ▸ h1.symm
      rw [pbFind, List.find?_cons_of_pos _ (by simp)]
      rfl
    · have hk : k ∈ t.map Prod.fst := List.mem_map.mpr ⟨(k, v), h1, rfl⟩
      have hak : a ≠ k := fun he => hnd.1 (he ▸ hk)
      rw [pbFind, List.find?_cons_of_neg _ (by simp [hak])]
      exact ih hnd.2 h1

theorem pbFind_cons (a : Nat) (w : List Nat) (l : List (Nat × List Nat))
    (k : Nat) :
    pbFind k ((a, w) :: l) = if a = k then some w else pbFind k l := by
  by_cases h : a = k
  · rw [if_pos h, pbFind, List.find?_cons_of_pos _ (by simp [h])]
    rfl
  · rw [if_neg h, pbFind, List.find?_cons_of_neg _ (by simp [h])]
    rfl

theorem pbFind_eq_none {l : List (Nat × List Nat)} {k : Nat} :
    pbFind k l = none ↔ ∀ p ∈ l, p.1 ≠ k := by
  rw [pbFind]
  simp [Option.map_eq_none', List.find?_eq_none]

theorem pbFind_pbRemove_self {l : List (Nat × List Nat)} {k : Nat}
    (hnd : (l.map Prod.fst).Nodup) : pbFind k (pbRemove k l) = none := by
  induction l with
  | nil => rfl
  | cons p t ih =>
    obtain ⟨a, b⟩ := p
    simp only [List.map_cons, List.nodup_cons] at hnd
    by_cases hak : a = k
    · subst hak
      rw [pbRemove, List.eraseP_cons_of_pos (by simp)]
      exact pbFind_eq_none.mpr
        (fun p hp he => hnd.1 (he ▸ List.mem_map.mpr ⟨p, hp, rfl⟩))
    · rw [pbRemove, List.eraseP_cons_of_neg (by simp [hak])]
      rw [pbFind, List.find?_cons_of_neg _ (by simp [hak])]
      exact ih hnd.2

theorem pbFind_pbRemove_ne {l : List (Nat × List Nat)} {k k' : Nat}
    (hne : k' ≠ k) : pbFind k' (pbRemove k l) = pbFind k' l := by
  induction l with
  | nil => rfl
  | cons p t ih =>
    obtain ⟨a, b⟩ := p
    by_cases hak : a = k
    · subst hak
      rw [pbRemove, List.eraseP_cons_of_pos (by simp)]
      rw [pbFind_cons, if_neg (fun he => hne he.symm)]
    · rw [pbRemove, List.eraseP_cons_of_neg (by simp [hak])]
      rw [pbFind_cons, pbFind_cons]
      by_cases hk' : a = k'
      · rw [if_pos hk', if_pos hk']
      · rw [if_neg hk', if_neg hk']
        exact ih

theorem pbRemove_keys_nodup {l : List (Nat × List Nat)} {k : Nat}
    (h : (l.map Prod.fst).Nodup) : ((pbRemove k l).map Prod.fst).Nodup :=
  List.Nodup.sublist (List.Sublist.map Prod.fst (List.eraseP_sublist l)) h

theorem pbRemove_length {l : List (Nat × List Nat)} {k : Nat} {v : List Nat}
    (h : pbFind k l = some v) : (pbRemove k l).length = l.length - 1 :=
  List.length_eraseP_of_mem (pbFind_mem h) (by simp)

theorem drainFuel_spec (blocks : List (List Nat)) (fed : List Nat) :
    ∀ (fuel : Nat) (pending : List (Nat × List Nat)) (h : List Nat) (n : Nat),
      pending.length ≤ fuel →
      ((pending.map Prod.fst).Nodup) →
      (∀ k v, pbFind k pending = some v ↔
        (k ∈ fed ∧ n ≤ k ∧ v = blocks.getD k [])) →
      h = (blocks.take n).flatten →
      (∀ k, k < n → k ∈ fed) →
      (∀ k ∈ fed, k < blocks.length) →
      HashInv blocks fed
        { hasher := (drainFuel fuel h n pending).1,
          next_block := (drainFuel fuel h n pending).2.1,
          pending_blocks := (drainFuel fuel h n pending).2.2 } := by
  intro fuel
  induction fuel with
  | zero =>
    intro pending h n hlen hnd hchar hh hlow hbound
    have hpe : pending = [] := List.eq_nil_of_length_eq_zero (by omega)
    subst hpe
    refine ⟨hh, hlow, ?_, hchar, hnd⟩
    intro hn
    have := (hchar n (blocks.getD n [])).mpr ⟨hn, Nat.le_refl n, rfl⟩
    simp [pbFind] at this
  | succ fuel ih =>
    intro pending h n hlen hnd hchar hh hlow hbound
    cases hfind : pbFind n pending with
    | none =>
      simp only [drainFuel, hfind]
      refine ⟨hh, hlow, ?_, hchar, hnd⟩
      intro hn
      have := (hchar n (blocks.getD n [])).mpr ⟨hn, Nat.le_refl n, rfl⟩
      rw [hfind] at this
      exact absurd this (by simp)
    | some block =>
      have hcb := (hchar n block).mp hfind
      have hnlt : n < blocks.length := hbound n hcb.1
      simp only [drainFuel, hfind]
      apply ih
      · rw [pbRemove_length hfind]
        omega
      · exact pbRemove_keys_nodup hnd
      · intro k v
        constructor
        · intro hf
          by_cases hkn : k = n
          · subst hkn
            rw [pbFind_pbRemove_self hnd] at hf
            exact absurd hf (by simp)
          · rw [pbFind_pbRemove_ne hkn] at hf
            have := (hchar k v).mp hf
            exact ⟨this.1, by omega, this.2.2⟩
        · rintro ⟨hkf, hnk, rfl⟩
          have hkn : k ≠ n := by omega
          rw [pbFind_pbRemove_ne hkn]
          exact (hchar k _).mpr ⟨hkf, by omega, rfl⟩
      · rw [hh, hcb.2.2, List.getD_eq_getElem blocks [] hnlt]
        rw [List.take_succ, List.getElem?_eq_getElem hnlt, List.flatten_append]
        simp
      · intro k hk
        by_cases hkn : k = n
        · subst hkn
          exact hcb.1
        · exact hlow k (by omega)
      · exact hbound

theorem hash_update_inv (blocks : List (List Nat)) (fed : List Nat)
    (s : ChunkedSha256) (b : List Nat) (i : Nat)
    (hinv : HashInv blocks fed s) (hi : i < blocks.length)
    (hb : b = blocks.getD i []) (hnew : i ∉ fed)
    (hbound : ∀ k ∈ fed, k < blocks.length) :
    HashInv blocks (i :: fed) (s.update b i) := by
  obtain ⟨nb, hs, pb⟩ := s
  obtain ⟨hh, hlow, hnb, hchar, hnd⟩ := hinv
  simp only at hh hlow hnb hchar hnd
  rw [ChunkedSha256.update]
  by_cases hgt : i > nb
  · rw [if_pos hgt]
    rw [HashInv]
    dsimp only
    have hnone : ∀ p ∈ pb, p.1 ≠ i := by
      intro p hp hpi
      have hmem : (i, p.2) ∈ pb := by
        have : p = (i, p.2) := by
          rw [← hpi]
        rw [← this]
        exact hp
      have := mem_pbFind hnd hmem
      exact hnew ((hchar i p.2).mp this).1
    have hrem : pbRemove i pb = pb :=
      List.eraseP_of_forall_not (fun p hp => by simpa using hnone p hp)
    refine ⟨hh, ?_, ?_, ?_, ?_⟩
    · exact fun k hk => List.mem_cons_of_mem _ (hlow k hk)
    · intro hmem
      rcases List.mem_cons.mp hmem with h1 | h1
      · omega
      · exact hnb h1
    · intro k v
      simp only [pbInsert, hrem]
      rw [pbFind_cons]
      by_cases hki : i = k
      · subst hki
        rw [if_pos rfl]
        constructor
        · intro he
          exact ⟨List.mem_cons_self _ _, by omega,
            by rw [← Option.some.inj he, hb]⟩
        · rintro ⟨hmem, hle, rfl⟩
          rw [hb]
      · rw [if_neg hki]
        constructor
        · intro hf
          obtain ⟨h1, h2, h3⟩ := (hchar k v).mp hf
          exact ⟨List.mem_cons_of_mem _ h1, h2, h3⟩
        · rintro ⟨hmem, hle, rfl⟩
          rcases List.mem_cons.mp hmem with h1 | h1
          · exact absurd h1.symm hki
          · exact (hchar k _).mpr ⟨h1, hle, rfl⟩
    · simp only [pbInsert, hrem, List.map_cons, List.nodup_cons]
      refine ⟨?_, hnd⟩
      intro hmem
      obtain ⟨p, hp, hpe⟩ := List.mem_map.mp hmem
      exact hnone p hp hpe
  · rw [if_neg hgt]
    have hieq : i = nb := by
      by_contra hne
      exact hnew (hlow i (by omega))
    subst hieq
    have hchar' : ∀ k v, pbFind k pb = some v ↔
        (k ∈ i :: fed ∧ i + 1 ≤ k ∧ v = blocks.getD k []) := by
      intro k v
      rw [hchar k v]
      constructor
      · rintro ⟨h1, h2, rfl⟩
        have : k ≠ i := fun he => hnb (he ▸ h1)
        exact ⟨List.mem_cons_of_mem _ h1, by omega, rfl⟩
      · rintro ⟨h1, h2, rfl⟩
        rcases List.mem_cons.mp h1 with h3 | h3
        · omega
        · exact ⟨h3, by omega, rfl⟩
    have hh' : hs ++ b = (blocks.take (i + 1)).flatten := by
      rw [hh, hb, List.getD_eq_getElem blocks [] hi]
      rw [List.take_succ, List.getElem?_eq_getElem hi, List.flatten_append]
      simp
    have hlow' : ∀ k, k < i + 1 → k ∈ i :: fed := by
      intro k hk
      by_cases hki : k = i
      · subst hki
        exact List.mem_cons_self _ _
      · exact List.mem_cons_of_mem _ (hlow k (by omega))
    have hbound' : ∀ k ∈ i :: fed, k < blocks.length := by
      intro k hk
      rcases List.mem_cons.mp hk with rfl | h1
      · exact hi
      · exact hbound k h1
    exact drainFuel_spec blocks (i :: fed) pb.length pb (hs ++ b) (i + 1)
      (Nat.le_refl _) hnd hchar' hh' hlow' hbound'

theorem hash_updates_inv (blocks : List (List Nat)) :
    ∀ (feed : List (List Nat × Nat)) (fed : List Nat) (s : ChunkedSha256),
      HashInv blocks fed s →
      ((feed.map Prod.snd) ++ fed).Nodup →
      (∀ p ∈ feed, p.2 < blocks.length ∧ p.1 = blocks.getD p.2 []) →
      (∀ k ∈ fed, k < blocks.length) →
      ∃ fed', (∀ k, k ∈ fed' ↔ (k ∈ feed.map Prod.snd ∨ k ∈ fed)) ∧
        HashInv blocks fed' (s.updates feed) := by
  intro feed
  induction feed with
  | nil =>
    intro fed s hinv _ _ _
    exact ⟨fed, by simp, hinv⟩
  | cons p t ih =>
    intro fed s hinv hnd hent hbound
    obtain ⟨b, i⟩ := p
    simp only [List.map_cons, List.cons_append, List.nodup_cons] at hnd
    have hin : i ∉ fed := fun h => hnd.1 (List.mem_append.mpr (Or.inr h))
    have hpe := hent (b, i) (List.mem_cons_self _ _)
    have hstep := hash_update_inv blocks fed s b i hinv hpe.1 hpe.2 hin hbound
    have hbound' : ∀ k ∈ i :: fed, k < blocks.length := by
      intro k hk
      rcases List.mem_cons.mp hk with rfl | hk'
      · exact hpe.1
      · exact hbound k hk'
    have hnd' : ((t.map Prod.snd) ++ (i :: fed)).Nodup :=
      (List.perm_middle).nodup_iff.mpr (List.nodup_cons.mpr hnd)
    have hent' : ∀ q ∈ t, q.2 < blocks.length ∧ q.1 = blocks.getD q.2 [] :=
      fun q hq => hent q (List.mem_cons_of_mem _ hq)
    obtain ⟨fed', hchar, hinv'⟩ :=
      ih (i :: fed) (s.update b i) hstep hnd' hent' hbound'
    refine ⟨fed', ?_, hinv'⟩
    intro k
    rw [hchar k]
    simp only [List.map_cons, List.mem_cons]
    tauto

/-- C2: feeding a freshly created ChunkedSha256 any permutation of the
indexed blocks covering indices 0 to N-1 and finalizing returns Some
of the digest of the in-order concatenation of the blocks (the digest
of a stream being modelled by the stream itself). -/
theorem chunked_sha256_permutation_digest (blocks : List (List Nat))
    (feed : List (List Nat × Nat))
    (hperm : feed.Perm (blocks.enum.map (fun p => (p.2, p.1)))) :
    (ChunkedSha256.new.updates feed).finalize.1 = some blocks.flatten := by
  have hinit : HashInv blocks [] ChunkedSha256.new := by
    refine ⟨rfl, fun k hk => absurd hk (Nat.not_lt_zero k),
      List.not_mem_nil _, ?_, by simp [ChunkedSha256.new]⟩
    intro k v
    constructor
    · intro h
      exact absurd h (by simp [pbFind, ChunkedSha256.new])
    · rintro ⟨h, -, -⟩
      simp at h
  have hsnd : (feed.map Prod.snd).Perm (List.range blocks.length) := by
    have h1 := hperm.map Prod.snd
    rw [List.map_map] at h1
    have h2 : List.map (Prod.snd ∘ fun (p : Nat × List Nat) => (p.2, p.1))
        blocks.enum = List.range blocks.length := by
      rw [show (Prod.snd ∘ fun (p : Nat × List Nat) => (p.2, p.1)) =
        Prod.fst from rfl, List.enum_map_fst]
    rw [h2] at h1
    exact h1
  have hent : ∀ p ∈ feed, p.2 < blocks.length ∧ p.1 = blocks.getD p.2 [] := by
    intro p hp
    have hp2 := hperm.mem_iff.mp hp
    obtain ⟨q, hq, he⟩ := List.mem_map.mp hp2
    obtain ⟨i, a⟩ := q
    have hqe := List.mem_enum hq
    constructor
    · rw [← he]
      exact hqe.1
    · rw [← he]
      simp only
      rw [hqe.2, List.getD_eq_getElem blocks [] hqe.1]
  have hndp : ((feed.map Prod.snd) ++ ([] : List Nat)).Nodup := by
    rw [List.append_nil]
    exact (hsnd.nodup_iff).mpr (List.nodup_range _)
  obtain ⟨fed', hchar, hinv⟩ := hash_updates_inv blocks feed []
    ChunkedSha256.new hinit hndp hent (by simp)
  obtain ⟨hh, hlow, hnbm, hcharp, hnd⟩ := hinv
  have hfed : ∀ k, k ∈ fed' ↔ k < blocks.length := by
    intro k
    rw [hchar k]
    simp only [List.not_mem_nil, or_false]
    rw [hsnd.mem_iff]
    exact List.mem_range
  have hnbeq : (ChunkedSha256.new.updates feed).next_block = blocks.length := by
    have h1 : ¬ (ChunkedSha256.new.updates feed).next_block < blocks.length :=
      fun h => hnbm ((hfed _).mpr h)
    have h2 : ¬ blocks.length < (ChunkedSha256.new.updates feed).next_block := by
      intro h
      exact Nat.lt_irrefl _ ((hfed _).mp (hlow blocks.length h))
    omega
  have hpend : (ChunkedSha256.new.updates feed).pending_blocks = [] := by
    cases hp : (ChunkedSha256.new.updates feed).pending_blocks with
    | nil => rfl
    | cons q t =>
      exfalso
      obtain ⟨a, w⟩ := q
      have hfq : pbFind a (ChunkedSha256.new.updates feed).pending_blocks =
          some w := by
        rw [hp, pbFind_cons, if_pos rfl]
      obtain ⟨h1, h2, -⟩ := (hcharp a w).mp hfq
      have := (hfed a).mp h1
      omega
  rw [ChunkedSha256.finalize, hpend]
  simp only [List.isEmpty_nil, if_true]
  rw [hh, hnbeq, List.take_length]

/-- C2 witness: feeding the three blocks of blocksW in the permuted
order feedW yields the digest of the full concatenation. -/
theorem chunked_sha256_permutation_digest_witness :
    (ChunkedSha256.new.updates feedW).finalize.1 = some blocksW.flatten :=
  chunked_sha256_permutation_digest blocksW feedW (by decide)

theorem sum_min_chunks (C : Nat) (hC : 1 ≤ C) :
    ∀ N : Nat,
      ((List.range ((N + C - 1) / C)).map (fun i => min C (N - i * C))).sum
        = N := by
  intro N
  induction N using Nat.strong_induction_on with
  | _ N ih =>
    rcases Nat.eq_zero_or_pos N with rfl | hN
    · rw [Nat.div_eq_of_lt (by omega)]
      simp
    · by_cases hNC : N ≤ C
      · have h1 : (N + C - 1) / C = 1 :=
          Nat.div_eq_of_lt_le (by omega) (by omega)
        rw [h1, show List.range 1 = [0] from rfl]
        simp only [List.map_cons, List.map_nil, List.sum_cons, List.sum_nil,
          Nat.zero_mul, Nat.sub_zero, Nat.add_zero]
        omega
      · have hK : (N + C - 1) / C = ((N - C) + C - 1) / C + 1 := by
          have he : N + C - 1 = ((N - C) + C - 1) + C := by omega
          rw [he, Nat.add_div_right _ (by omega)]
        rw [hK, List.range_succ_eq_map, List.map_cons, List.sum_cons,
          List.map_map]
        have hstep : ∀ a ∈ List.range (((N - C) + C - 1) / C),
            ((fun i => min C (N - i * C)) ∘ Nat.succ) a =
              (fun i => min C ((N - C) - i * C)) a := by
          intro a _
          simp only [Function.comp_apply]
          rw [Nat.succ_mul]
          congr 1
          omega
        rw [List.map_congr_left hstep, ih (N - C) (by omega)]
        omega

theorem getOrCreateChild_chunks (cat : Catalog) (name : PathName)
    (parent : Nat) :
    ((cat.getOrCreateChild name parent).2).chunks = cat.chunks ∧
      ((cat.getOrCreateChild name parent).2).files = cat.files ∧
      ((cat.getOrCreateChild name parent).2).aggregates = cat.aggregates := by
  rw [Catalog.getOrCreateChild]
  cases cat.findInodeByNameAndParent name parent with
  | some i => exact ⟨rfl, rfl, rfl⟩
  | none => exact ⟨rfl, rfl, rfl⟩

theorem inodeWalk_chunks (l : List PathName) :
    ∀ (acc : Nat × Catalog),
      ((l.foldl (fun (acc : Nat × Catalog) comp =>
          acc.2.getOrCreateChild comp acc.1) acc).2).chunks = acc.2.chunks ∧
      ((l.foldl (fun (acc : Nat × Catalog) comp =>
          acc.2.getOrCreateChild comp acc.1) acc).2).files = acc.2.files ∧
      ((l.foldl (fun (acc : Nat × Catalog) comp =>
          acc.2.getOrCreateChild comp acc.1) acc).2).aggregates =
        acc.2.aggregates := by
  induction l with
  | nil => intro acc; exact ⟨rfl, rfl, rfl⟩
  | cons c t ih =>
    intro acc
    rw [List.foldl_cons]
    obtain ⟨h1, h2, h3⟩ := ih (acc.2.getOrCreateChild c acc.1)
    obtain ⟨g1, g2, g3⟩ := getOrCreateChild_chunks acc.2 c acc.1
    exact ⟨h1.trans g1, h2.trans g2, h3.trans g3⟩

theorem fuseInsert_chunks (cat : Catalog) (u : Nat) (p : List PathName) :
    (cat.fuseInsert u p).chunks = cat.chunks ∧
      (cat.fuseInsert u p).files = cat.files ∧
      (cat.fuseInsert u p).aggregates = cat.aggregates := by
  rw [Catalog.fuseInsert]
  cases p.getLast? with
  | none => exact ⟨rfl, rfl, rfl⟩
  | some leaf =>
    obtain ⟨h1, h2, h3⟩ := inodeWalk_chunks p.dropLast (0, cat)
    exact ⟨h1, h2, h3⟩

theorem large_file_chunks (cfg : CrawlConfig) (st : CrawlState)
    (u filesize : Nat)
    (hfresh : ∀ c ∈ st.cat.chunks, c.file_uuid ≠ u) :
    ∀ count : Nat,
      (Crawl.large_file cfg st u filesize count).cat.chunks =
        st.cat.chunks ++ (List.range count).map
          (plannedChunk cfg st.next_uuid u filesize) ∧
      (Crawl.large_file cfg st u filesize count).next_uuid =
        st.next_uuid + count ∧
      (Crawl.large_file cfg st u filesize count).cat.files = st.cat.files := by
  intro count
  induction count with
  | zero => simp [Crawl.large_file]
  | succ n ih =>
    obtain ⟨h1, h2, h3⟩ := ih
    rw [Crawl.large_file, List.range_succ, List.foldl_append] at *
    rw [show (List.range n).foldl _ st = Crawl.large_file cfg st u filesize n
          from rfl] at *
    simp only [List.foldl_cons, List.foldl_nil]
    have hguard : Catalog.chunksFindByFileUuidAndIndex
        (Crawl.large_file cfg st u filesize n).cat u n = none := by
      rw [Catalog.chunksFindByFileUuidAndIndex, h1]
      rw [List.find?_eq_none]
      intro x hx
      rcases List.mem_append.mp hx with hx1 | hx1
      · simp only [Bool.and_eq_true, beq_iff_eq, not_and]
        intro he
        exact absurd he (hfresh x hx1)
      · obtain ⟨i, hi, rfl⟩ := List.mem_map.mp hx1
        simp only [plannedChunk, Bool.and_eq_true, beq_iff_eq, not_and]
        intro _ he
        exact absurd he (by have := List.mem_range.mp hi; omega)
    rw [hguard]
    simp only [Option.isSome_none, Bool.false_eq_true, if_false]
    refine ⟨?_, by simp [Catalog.chunksInsert, h2]; omega,
      by simp [Catalog.chunksInsert, h3]⟩
    simp only [Catalog.chunksInsert, h1, h2, List.append_assoc,
      List.range_succ, List.map_append, List.map_cons, List.map_nil]
    rfl

/-- C3: crawling a fresh regular file of size N planned in Chunked mode
with chunk size C of at least 1 creates exactly (N + C - 1) / C, that
is the ceiling of N / C, chunk rows with dense indices from 0, where
chunk i has offset i * C and payload_size min(C, N - i * C); the
payload sizes sum to N and the indices, and so the (file_uuid, idx)
pairs, are pairwise distinct. -/
theorem crawl_chunked_file_plan (cfg : CrawlConfig) (st : CrawlState)
    (p : List PathName) (N : Nat)
    (hC : 1 ≤ cfg.chunk_size)
    (hig : cfg.ignored p = false)
    (hfind : st.cat.filesFindByPath p = none)
    (hmode : cfg.aggregate_min_size ≤ N)
    (hfresh : ∀ c ∈ st.cat.chunks, c.file_uuid ≠ st.next_uuid)
    (hov : N + cfg.chunk_size - 1 < 2 ^ 64) :
    ((Crawl.visit_file cfg st (p, N)).cat.chunks.filter
        (fun c => c.file_uuid == st.next_uuid)) =
      (List.range ((N + cfg.chunk_size - 1) / cfg.chunk_size)).map
        (plannedChunk cfg (st.next_uuid + 1) st.next_uuid N) ∧
    (((Crawl.visit_file cfg st (p, N)).cat.chunks.filter
        (fun c => c.file_uuid == st.next_uuid)).map
          (fun c => c.payload_size)).sum = N ∧
    (((Crawl.visit_file cfg st (p, N)).cat.chunks.filter
        (fun c => c.file_uuid == st.next_uuid)).map (fun c => c.idx)) =
      List.range ((N + cfg.chunk_size - 1) / cfg.chunk_size) := by
  have hcc : chunksCount cfg.chunk_size N =
      (N + cfg.chunk_size - 1) / cfg.chunk_size := by
    rw [chunksCount, Nat.mod_eq_of_lt hov]
  have hmain : (Crawl.visit_file cfg st (p, N)).cat.chunks.filter
      (fun c => c.file_uuid == st.next_uuid) =
        (List.range ((N + cfg.chunk_size - 1) / cfg.chunk_size)).map
          (plannedChunk cfg (st.next_uuid + 1) st.next_uuid N) := by
    rw [Crawl.visit_file]
    simp only [hig, Bool.false_eq_true, if_false, hfind, hcc]
    rw [if_pos hmode]
    set st1 : CrawlState :=
      { cat := (st.cat.filesInsert
          { uuid := st.next_uuid, path := p, size := N, sha256 := none,
            chunks := (N + cfg.chunk_size - 1) / cfg.chunk_size,
            mode := if N < cfg.aggregate_min_size then Mode.Aggregated
              else Mode.Chunked,
            status := Status.Pending }).fuseInsert st.next_uuid p,
        next_uuid := st.next_uuid + 1,
        current_aggregate := st.current_aggregate } with hst1
    have hch1 : st1.cat.chunks = st.cat.chunks := by
      rw [hst1]
      exact (fuseInsert_chunks _ _ _).1
    have hfresh1 : ∀ c ∈ st1.cat.chunks, c.file_uuid ≠ st.next_uuid := by
      rw [hch1]
      exact hfresh
    obtain ⟨h1, -, -⟩ := large_file_chunks cfg st1 st.next_uuid N hfresh1
      ((N + cfg.chunk_size - 1) / cfg.chunk_size)
    rw [h1, List.filter_append, hch1]
    have hleft : st.cat.chunks.filter
        (fun c => c.file_uuid == st.next_uuid) = [] := by
      rw [List.filter_eq_nil_iff]
      intro c hc
      simp [hfresh c hc]
    have hright : ((List.range ((N + cfg.chunk_size - 1) /
        cfg.chunk_size)).map (plannedChunk cfg st1.next_uuid st.next_uuid
          N)).filter (fun c => c.file_uuid == st.next_uuid) =
        (List.range ((N + cfg.chunk_size - 1) / cfg.chunk_size)).map
          (plannedChunk cfg st1.next_uuid st.next_uuid N) := by
      rw [List.filter_eq_self]
      intro c hc
      obtain ⟨i, -, rfl⟩ := List.mem_map.mp hc
      simp [plannedChunk]
    rw [hleft, hright, List.nil_append, hst1]
  refine ⟨hmain, ?_, ?_⟩
  · rw [hmain, List.map_map]
    have : ((fun c : ChunkRow => c.payload_size) ∘
        plannedChunk cfg (st.next_uuid + 1) st.next_uuid N) =
          (fun i => min cfg.chunk_size (N - i * cfg.chunk_size)) := rfl
    rw [this]
    exact sum_min_chunks cfg.chunk_size hC N
  · rw [hmain, List.map_map]
    have : ((fun c : ChunkRow => c.idx) ∘
        plannedChunk cfg (st.next_uuid + 1) st.next_uuid N) = id := rfl
    rw [this, List.map_id]

/-- C3 witness: planning the 3-byte file of treeEx with chunk size 2
from the empty catalog creates the two expected chunk rows. -/
theorem crawl_chunked_file_plan_witness :
    ((Crawl.visit_file cfgEx emptySys.st
        ([.str "a", .str "b.bin"], 3)).cat.chunks.filter
          (fun c => c.file_uuid == emptySys.st.next_uuid)) =
      (List.range ((3 + cfgEx.chunk_size - 1) / cfgEx.chunk_size)).map
        (plannedChunk cfgEx (emptySys.st.next_uuid + 1)
          emptySys.st.next_uuid 3) ∧
    (((Crawl.visit_file cfgEx emptySys.st
        ([.str "a", .str "b.bin"], 3)).cat.chunks.filter
          (fun c => c.file_uuid == emptySys.st.next_uuid)).map
            (fun c => c.payload_size)).sum = 3 ∧
    (((Crawl.visit_file cfgEx emptySys.st
        ([.str "a", .str "b.bin"], 3)).cat.chunks.filter
          (fun c => c.file_uuid == emptySys.st.next_uuid)).map
            (fun c => c.idx)) =
      List.range ((3 + cfgEx.chunk_size - 1) / cfgEx.chunk_size) :=
  crawl_chunked_file_plan cfgEx emptySys.st [.str "a", .str "b.bin"] 3
    (by decide) rfl rfl (by decide)
    (by intro c hc; simp [emptySys, emptyCatalog] at hc) (by decide)

theorem find?_append_some {α : Type} {p : α → Bool} {l₁ : List α}
    (l₂ : List α) {a : α} (h : l₁.find? p = some a) :
    (l₁ ++ l₂).find? p = some a := by
  rw [List.find?_append, h]
  rfl

theorem catExtends_refl (cat : Catalog) : CatExtends cat cat :=
  ⟨⟨[], by simp⟩, ⟨[], by simp⟩, ⟨[], by simp⟩⟩

theorem catExtends_trans {a b c : Catalog} (h1 : CatExtends a b)
    (h2 : CatExtends b c) : CatExtends a c := by
  obtain ⟨⟨l1, e1⟩, ⟨l2, e2⟩, ⟨l3, e3⟩⟩ := h1
  obtain ⟨⟨m1, f1⟩, ⟨m2, f2⟩, ⟨m3, f3⟩⟩ := h2
  exact ⟨⟨l1 ++ m1, by rw [f1, e1, List.append_assoc]⟩,
    ⟨l2 ++ m2, by rw [f2, e2, List.append_assoc]⟩,
    ⟨l3 ++ m3, by rw [f3, e3, List.append_assoc]⟩⟩

theorem filesFindByPath_extends {cat cat' : Catalog} {p : List PathName}
    {f : FileRow} (h : CatExtends cat cat')
    (hf : cat.filesFindByPath p = some f) : cat'.filesFindByPath p = some f := by
  obtain ⟨⟨l, hl⟩, -, -⟩ := h
  rw [Catalog.filesFindByPath, hl]
  exact find?_append_some l hf

theorem chunksFind_isSome_extends {cat cat' : Catalog} {u i : Nat}
    (h : CatExtends cat cat')
    (hf : (cat.chunksFindByFileUuidAndIndex u i).isSome = true) :
    (cat'.chunksFindByFileUuidAndIndex u i).isSome = true := by
  obtain ⟨-, ⟨l, hl⟩, -⟩ := h
  obtain ⟨c, hc⟩ := Option.isSome_iff_exists.mp hf
  rw [Catalog.chunksFindByFileUuidAndIndex, hl]
  rw [find?_append_some l hc]
  rfl

theorem aggFind_isSome_extends {cat cat' : Catalog} {p : List PathName}
    (h : CatExtends cat cat')
    (hf : (cat.aggregatesFindByFilePath p).isSome = true) :
    (cat'.aggregatesFindByFilePath p).isSome = true := by
  obtain ⟨-, -, ⟨l, hl⟩⟩ := h
  obtain ⟨a, ha⟩ := Option.isSome_iff_exists.mp hf
  rw [Catalog.aggregatesFindByFilePath, hl]
  rw [find?_append_some l ha]
  rfl

theorem visitDone_extends {cfg : CrawlConfig} {cat cat' : Catalog}
    {e : List PathName × Nat} (h : CatExtends cat cat')
    (hd : VisitDone cfg cat e) : VisitDone cfg cat' e := by
  rcases hd with h1 | ⟨f, hf, hch, hag⟩
  · exact Or.inl h1
  · exact Or.inr ⟨f, filesFindByPath_extends h hf,
      fun hs i hi => chunksFind_isSome_extends h (hch hs i hi),
      fun hs => aggFind_isSome_extends h (hag hs)⟩

theorem fuseInsert_extends (cat : Catalog) (u : Nat) (p : List PathName) :
    CatExtends cat (cat.fuseInsert u p) := by
  obtain ⟨h1, h2, h3⟩ := fuseInsert_chunks cat u p
  exact ⟨⟨[], by simp [h2]⟩, ⟨[], by simp [h1]⟩, ⟨[], by simp [h3]⟩⟩

theorem large_file_extends (cfg : CrawlConfig) (u fs : Nat) :
    ∀ (count : Nat) (st : CrawlState),
      CatExtends st.cat (Crawl.large_file cfg st u fs count).cat := by
  intro count
  induction count with
  | zero => intro st; exact catExtends_refl _
  | succ n ih =>
    intro st
    rw [Crawl.large_file, List.range_succ, List.foldl_append]
    rw [show (List.range n).foldl _ st = Crawl.large_file cfg st u fs n
          from rfl]
    simp only [List.foldl_cons, List.foldl_nil]
    refine catExtends_trans (ih st) ?_
    by_cases hg : (Catalog.chunksFindByFileUuidAndIndex
        (Crawl.large_file cfg st u fs n).cat u n).isSome = true
    · rw [if_pos hg]
      exact catExtends_refl _
    · rw [if_neg hg]
      exact ⟨⟨[], by simp [Catalog.chunksInsert]⟩, ⟨_, rfl⟩,
        ⟨[], by simp [Catalog.chunksInsert]⟩⟩

theorem new_aggregate_extends (st : CrawlState) (fs : Nat) :
    CatExtends st.cat (Crawl.new_aggregate st fs).cat :=
  ⟨⟨_, rfl⟩, ⟨_, rfl⟩,
    ⟨[], by simp [Crawl.new_aggregate, Catalog.chunksInsert,
      Catalog.filesInsert]⟩⟩

theorem get_aggregate_path_extends (cfg : CrawlConfig) (st : CrawlState)
    (fs : Nat) :
    CatExtends st.cat (Crawl.get_aggregate_path cfg st fs).2.cat := by
  rw [Crawl.get_aggregate_path]
  cases st.current_aggregate with
  | none => exact new_aggregate_extends st fs
  | some a =>
    dsimp only
    by_cases hsz : a.2 + fs > cfg.aggregate_size
    · rw [if_pos hsz]
      exact new_aggregate_extends st fs
    · rw [if_neg hsz]
      exact catExtends_refl _

theorem small_file_extends (cfg : CrawlConfig) (st : CrawlState)
    (p : List PathName) (fs : Nat) :
    CatExtends st.cat (Crawl.small_file cfg st p fs).cat := by
  rw [Crawl.small_file]
  by_cases hg : (st.cat.aggregatesFindByFilePath p).isSome = true
  · rw [if_pos hg]
    exact catExtends_refl _
  · rw [if_neg hg]
    refine catExtends_trans (get_aggregate_path_extends cfg st fs) ?_
    exact ⟨⟨[], by simp [Catalog.aggregatesInsert]⟩,
      ⟨[], by simp [Catalog.aggregatesInsert]⟩, ⟨[_], rfl⟩⟩

theorem visit_file_extends (cfg : CrawlConfig) (st : CrawlState)
    (e : List PathName × Nat) :
    CatExtends st.cat (Crawl.visit_file cfg st e).cat := by
  obtain ⟨p, N⟩ := e
  rw [Crawl.visit_file]
  by_cases hig : cfg.ignored p = true
  · rw [if_pos hig]
    exact catExtends_refl _
  · rw [if_neg hig]
    cases hfind : st.cat.filesFindByPath p with
    | some f =>
      simp only
      by_cases hsz : cfg.aggregate_min_size ≤ N
      · rw [if_pos hsz]
        exact large_file_extends cfg f.uuid N _ st
      · rw [if_neg hsz]
        exact small_file_extends cfg st f.path N
    | none =>
      dsimp only
      by_cases hsz : cfg.aggregate_min_size ≤ N
      · rw [if_pos hsz]
        refine catExtends_trans
          (catExtends_trans ?_ (fuseInsert_extends _ _ _))
          (large_file_extends cfg st.next_uuid N _ _)
        exact ⟨⟨_, rfl⟩, ⟨[], by simp [Catalog.filesInsert]⟩,
          ⟨[], by simp [Catalog.filesInsert]⟩⟩
      · rw [if_neg hsz]
        refine catExtends_trans
          (catExtends_trans ?_ (fuseInsert_extends _ _ _))
          (small_file_extends cfg _ p N)
        exact ⟨⟨_, rfl⟩, ⟨[], by simp [Catalog.filesInsert]⟩,
          ⟨[], by simp [Catalog.filesInsert]⟩⟩

theorem fold_visit_extends (cfg : CrawlConfig) :
    ∀ (tree : List (List PathName × Nat)) (st : CrawlState),
      CatExtends st.cat
        ((tree.foldl (Crawl.visit_file cfg) st)).cat := by
  intro tree
  induction tree with
  | nil => intro st; exact catExtends_refl _
  | cons e t ih =>
    intro st
    rw [List.foldl_cons]
    exact catExtends_trans (visit_file_extends cfg st e)
      (ih (Crawl.visit_file cfg st e))

theorem find?_append_isSome_of_last {α : Type} (p : α → Bool)
    (l : List α) (x : α) (hx : p x = true) :
    ((l ++ [x]).find? p).isSome = true := by
  rw [List.find?_append]
  cases hf : l.find? p with
  | some a => rfl
  | none =>
    simp only [Option.none_or]
    rw [List.find?_cons_of_pos _ hx]
    rfl

theorem large_file_complete (cfg : CrawlConfig) (u fs : Nat) :
    ∀ (count : Nat) (st : CrawlState), ∀ i < count,
      (Catalog.chunksFindByFileUuidAndIndex
        (Crawl.large_file cfg st u fs count).cat u i).isSome = true := by
  intro count
  induction count with
  | zero => intro st i hi; omega
  | succ n ih =>
    intro st i hi
    rw [Crawl.large_file, List.range_succ, List.foldl_append]
    rw [show (List.range n).foldl _ st = Crawl.large_file cfg st u fs n
          from rfl]
    simp only [List.foldl_cons, List.foldl_nil]
    by_cases hg : (Catalog.chunksFindByFileUuidAndIndex
        (Crawl.large_file cfg st u fs n).cat u n).isSome = true
    · rw [if_pos hg]
      rcases Nat.lt_or_ge i n with hin | hin
      · exact ih st i hin
      · have : i = n := by omega
        subst this
        exact hg
    · rw [if_neg hg]
      rcases Nat.lt_or_ge i n with hin | hin
      · refine chunksFind_isSome_extends ?_ (ih st i hin)
        exact ⟨⟨[], by simp [Catalog.chunksInsert]⟩, ⟨_, rfl⟩,
          ⟨[], by simp [Catalog.chunksInsert]⟩⟩
      · have : i = n := by omega
        subst this
        rw [Catalog.chunksFindByFileUuidAndIndex, Catalog.chunksInsert]
        exact find?_append_isSome_of_last _ _ _ (by simp)

theorem large_file_id (cfg : CrawlConfig) (u fs : Nat) :
    ∀ (count : Nat) (st : CrawlState),
      (∀ i < count,
        (st.cat.chunksFindByFileUuidAndIndex u i).isSome = true) →
      Crawl.large_file cfg st u fs count = st := by
  intro count
  induction count with
  | zero => intro st _; rfl
  | succ n ih =>
    intro st hc
    rw [Crawl.large_file, List.range_succ, List.foldl_append]
    rw [show (List.range n).foldl _ st = Crawl.large_file cfg st u fs n
          from rfl]
    rw [ih st (fun i hi => hc i (by omega))]
    simp only [List.foldl_cons, List.foldl_nil]
    rw [if_pos (hc n (by omega))]

theorem small_file_id (cfg : CrawlConfig) (st : CrawlState)
    (p : List PathName) (fs : Nat)
    (h : (st.cat.aggregatesFindByFilePath p).isSome = true) :
    Crawl.small_file cfg st p fs = st := by
  rw [Crawl.small_file, if_pos h]

theorem small_file_complete (cfg : CrawlConfig) (st : CrawlState)
    (p : List PathName) (fs : Nat) :
    ((Crawl.small_file cfg st p fs).cat.aggregatesFindByFilePath p).isSome
      = true := by
  rw [Crawl.small_file]
  by_cases hg : (st.cat.aggregatesFindByFilePath p).isSome = true
  · rw [if_pos hg]
    exact hg
  · rw [if_neg hg]
    dsimp only
    rw [Catalog.aggregatesFindByFilePath, Catalog.aggregatesInsert]
    exact find?_append_isSome_of_last _ _ _ (by simp)

theorem visit_file_done (cfg : CrawlConfig) (st : CrawlState)
    (e : List PathName × Nat) :
    VisitDone cfg (Crawl.visit_file cfg st e).cat e := by
  obtain ⟨p, N⟩ := e
  rw [Crawl.visit_file]
  by_cases hig : cfg.ignored p = true
  · rw [if_pos hig]
    exact Or.inl hig
  · rw [if_neg hig]
    cases hfind : st.cat.filesFindByPath p with
    | some f =>
      dsimp only
      have hfp : f.path = p := by
        have := List.find?_some hfind
        simpa using this
      by_cases hsz : cfg.aggregate_min_size ≤ N
      · rw [if_pos hsz]
        refine Or.inr ⟨f, ?_, ?_, ?_⟩
        · exact filesFindByPath_extends (large_file_extends cfg f.uuid N _ st)
            hfind
        · intro _ i hi
          exact large_file_complete cfg f.uuid N _ st i hi
        · intro hlt
          omega
      · rw [if_neg hsz]
        refine Or.inr ⟨f, ?_, ?_, ?_⟩
        · exact filesFindByPath_extends (small_file_extends cfg st f.path N)
            hfind
        · intro hge
          omega
        · intro _
          rw [← hfp]
          exact small_file_complete cfg st f.path N
    | none =>
      dsimp only
      by_cases hsz : cfg.aggregate_min_size ≤ N
      · rw [if_pos hsz]
        have hfind1 : (((st.cat.filesInsert
            { uuid := st.next_uuid, path := p, size := N, sha256 := none,
              chunks := chunksCount cfg.chunk_size N,
              mode := if N < cfg.aggregate_min_size then Mode.Aggregated
                else Mode.Chunked,
              status := Status.Pending }).fuseInsert
                st.next_uuid p).filesFindByPath p) = some
            { uuid := st.next_uuid, path := p, size := N, sha256 := none,
              chunks := chunksCount cfg.chunk_size N,
              mode := if N < cfg.aggregate_min_size then Mode.Aggregated
                else Mode.Chunked,
              status := Status.Pending } := by
          rw [Catalog.filesFindByPath, (fuseInsert_chunks _ _ _).2.1,
            Catalog.filesInsert, List.find?_append]
          rw [show st.cat.files.find? (fun f => f.path == p) = none from hfind]
          simp
        refine Or.inr ⟨_, filesFindByPath_extends
          (large_file_extends cfg st.next_uuid N _ _) hfind1, ?_, ?_⟩
        · intro _ i hi
          exact large_file_complete cfg st.next_uuid N _ _ i hi
        · intro hlt
          omega
      · rw [if_neg hsz]
        have hfind1 : (((st.cat.filesInsert
            { uuid := st.next_uuid, path := p, size := N, sha256 := none,
              chunks := chunksCount cfg.chunk_size N,
              mode := if N < cfg.aggregate_min_size then Mode.Aggregated
                else Mode.Chunked,
              status := Status.Pending }).fuseInsert
                st.next_uuid p).filesFindByPath p) = some
            { uuid := st.next_uuid, path := p, size := N, sha256 := none,
              chunks := chunksCount cfg.chunk_size N,
              mode := if N < cfg.aggregate_min_size then Mode.Aggregated
                else Mode.Chunked,
              status := Status.Pending } := by
          rw [Catalog.filesFindByPath, (fuseInsert_chunks _ _ _).2.1,
            Catalog.filesInsert, List.find?_append]
          rw [show st.cat.files.find? (fun f => f.path == p) = none from hfind]
          simp
        refine Or.inr ⟨_, filesFindByPath_extends
          (small_file_extends cfg _ p N) hfind1, ?_, ?_⟩
        · intro hge
          omega
        · intro _
          exact small_file_complete cfg _ p N

theorem visit_file_id (cfg : CrawlConfig) (st : CrawlState)
    (e : List PathName × Nat) (hdone : VisitDone cfg st.cat e) :
    Crawl.visit_file cfg st e = st := by
  obtain ⟨p, N⟩ := e
  rw [Crawl.visit_file]
  by_cases hig : cfg.ignored p = true
  · rw [if_pos hig]
  · rw [if_neg hig]
    rcases hdone with hig2 | ⟨f, hfind, hch, hagg⟩
    · exact absurd hig2 hig
    · rw [hfind]
      dsimp only
      have hfp : f.path = p := by
        have := List.find?_some hfind
        simpa using this
      by_cases hsz : cfg.aggregate_min_size ≤ N
      · rw [if_pos hsz]
        exact large_file_id cfg f.uuid N _ st (hch hsz)
      · rw [if_neg hsz]
        rw [hfp]
        exact small_file_id cfg st p N (hagg (by omega))

theorem fold_visit_done (cfg : CrawlConfig) :
    ∀ (tree : List (List PathName × Nat)) (st : CrawlState),
      ∀ e ∈ tree,
        VisitDone cfg ((tree.foldl (Crawl.visit_file cfg) st)).cat e := by
  intro tree
  induction tree with
  | nil => intro st e he; simp at he
  | cons h t ih =>
    intro st e he
    rw [List.foldl_cons]
    rcases List.mem_cons.mp he with rfl | he'
    · exact visitDone_extends (fold_visit_extends cfg t _)
        (visit_file_done cfg st e)
    · exact ih (Crawl.visit_file cfg st h) e he'

theorem fold_visit_id (cfg : CrawlConfig) :
    ∀ (tree : List (List PathName × Nat)) (st : CrawlState),
      (∀ e ∈ tree, VisitDone cfg st.cat e) →
      tree.foldl (Crawl.visit_file cfg) st = st := by
  intro tree
  induction tree with
  | nil => intro st _; rfl
  | cons h t ih =>
    intro st hd
    rw [List.foldl_cons, visit_file_id cfg st h (hd h (List.mem_cons_self _ _))]
    exact ih st (fun e he => hd e (List.mem_cons_of_mem _ he))

/-- C9: running crawl a second time over the same tree with the same
configuration leaves the catalog identical: no new file, chunk,
aggregate link, aggregate group or inode rows. -/
theorem crawl_idempotent (cfg : CrawlConfig)
    (tree : List (List PathName × Nat)) (st : CrawlState) :
    (Crawl.run cfg tree (Crawl.run cfg tree st)).cat =
      (Crawl.run cfg tree st).cat := by
  have hdone : ∀ e ∈ tree, VisitDone cfg
      ({ Crawl.run cfg tree st with
          current_aggregate := none } : CrawlState).cat e :=
    fun e he => fold_visit_done cfg tree { st with current_aggregate := none }
      e he
  rw [Crawl.run, fold_visit_id cfg tree _ hdone]

theorem nodup_append_singleton {α : Type} {l : List α} {x : α}
    (h : l.Nodup) (hx : x ∉ l) : (l ++ [x]).Nodup := by
  rw [List.nodup_append]
  exact ⟨h, List.nodup_singleton x, fun a ha hb => by
    simp only [List.mem_singleton] at hb
    subst hb
    exact hx ha⟩

theorem large_file_allPending (cfg : CrawlConfig) (u fs : Nat) :
    ∀ (count : Nat) (st : CrawlState), AllPending st.cat →
      AllPending (Crawl.large_file cfg st u fs count).cat := by
  intro count
  induction count with
  | zero => intro st h; exact h
  | succ n ih =>
    intro st h
    rw [Crawl.large_file, List.range_succ, List.foldl_append]
    rw [show (List.range n).foldl _ st = Crawl.large_file cfg st u fs n
          from rfl]
    simp only [List.foldl_cons, List.foldl_nil]
    have hn := ih st h
    by_cases hg : (Catalog.chunksFindByFileUuidAndIndex
        (Crawl.large_file cfg st u fs n).cat u n).isSome = true
    · rw [if_pos hg]
      exact hn
    · rw [if_neg hg]
      refine ⟨hn.1, ?_⟩
      intro c hc
      rcases List.mem_append.mp hc with h1 | h1
      · exact hn.2 c h1
      · simp only [List.mem_singleton] at h1
        subst h1
        rfl

theorem new_aggregate_allPending (st : CrawlState) (fs : Nat)
    (h : AllPending st.cat) : AllPending (Crawl.new_aggregate st fs).cat := by
  constructor
  · intro f hf
    rcases List.mem_append.mp hf with h1 | h1
    · exact h.1 f h1
    · simp only [List.mem_singleton] at h1
      subst h1
      rfl
  · intro c hc
    rcases List.mem_append.mp hc with h1 | h1
    · exact h.2 c h1
    · simp only [List.mem_singleton] at h1
      subst h1
      rfl

theorem get_aggregate_path_allPending (cfg : CrawlConfig) (st : CrawlState)
    (fs : Nat) (h : AllPending st.cat) :
    AllPending (Crawl.get_aggregate_path cfg st fs).2.cat := by
  rw [Crawl.get_aggregate_path]
  cases st.current_aggregate with
  | none => exact new_aggregate_allPending st fs h
  | some a =>
    dsimp only
    by_cases hsz : a.2 + fs > cfg.aggregate_size
    · rw [if_pos hsz]
      exact new_aggregate_allPending st fs h
    · rw [if_neg hsz]
      exact h

theorem small_file_allPending (cfg : CrawlConfig) (st : CrawlState)
    (p : List PathName) (fs : Nat) (h : AllPending st.cat) :
    AllPending (Crawl.small_file cfg st p fs).cat := by
  rw [Crawl.small_file]
  by_cases hg : (st.cat.aggregatesFindByFilePath p).isSome = true
  · rw [if_pos hg]
    exact h
  · rw [if_neg hg]
    exact get_aggregate_path_allPending cfg st fs h

theorem fuseInsert_allPending (cat : Catalog) (u : Nat) (p : List PathName)
    (h : AllPending cat) : AllPending (cat.fuseInsert u p) := by
  obtain ⟨h1, h2, -⟩ := fuseInsert_chunks cat u p
  exact ⟨fun f hf => h.1 f (h2 ▸ hf), fun c hc => h.2 c (h1 ▸ hc)⟩

theorem visit_file_allPending (cfg : CrawlConfig) (st : CrawlState)
    (e : List PathName × Nat) (h : AllPending st.cat) :
    AllPending (Crawl.visit_file cfg st e).cat := by
  obtain ⟨p, N⟩ := e
  rw [Crawl.visit_file]
  by_cases hig : cfg.ignored p = true
  · rw [if_pos hig]
    exact h
  · rw [if_neg hig]
    cases hfind : st.cat.filesFindByPath p with
    | some f =>
      dsimp only
      by_cases hsz : cfg.aggregate_min_size ≤ N
      · rw [if_pos hsz]
        exact large_file_allPending cfg f.uuid N _ st h
      · rw [if_neg hsz]
        exact small_file_allPending cfg st f.path N h
    | none =>
      dsimp only
      have hins : AllPending ((st.cat.filesInsert
          { uuid := st.next_uuid, path := p, size := N, sha256 := none,
            chunks := chunksCount cfg.chunk_size N,
            mode := if N < cfg.aggregate_min_size then Mode.Aggregated
              else Mode.Chunked,
            status := Status.Pending }).fuseInsert st.next_uuid p) := by
        refine fuseInsert_allPending _ _ _ ⟨?_, h.2⟩
        intro f hf
        rcases List.mem_append.mp hf with h1 | h1
        · exact h.1 f h1
        · simp only [List.mem_singleton] at h1
          subst h1
          rfl
      by_cases hsz : cfg.aggregate_min_size ≤ N
      · rw [if_pos hsz]
        exact large_file_allPending cfg st.next_uuid N _ _ hins
      · rw [if_neg hsz]
        exact small_file_allPending cfg _ p N hins

theorem fold_visit_allPending (cfg : CrawlConfig) :
    ∀ (tree : List (List PathName × Nat)) (st : CrawlState),
      AllPending st.cat →
      AllPending ((tree.foldl (Crawl.visit_file cfg) st)).cat := by
  intro tree
  induction tree with
  | nil => intro st h; exact h
  | cons e t ih =>
    intro st h
    rw [List.foldl_cons]
    exact ih _ (visit_file_allPending cfg st e h)

theorem allPending_statusInv (cat : Catalog) (h : AllPending cat) :
    StatusInv cat := by
  constructor
  · intro f hf hd
    rw [h.1 f hf] at hd
    exact absurd hd (by simp)
  · rintro f hf ⟨c, hc, hcu⟩ hall
    have h1 := h.2 c hc
    have h2 := hall c hc hcu
    rw [h1] at h2
    exact absurd h2 (by simp)

theorem large_file_uuidWF (cfg : CrawlConfig) (u fs : Nat) :
    ∀ (count : Nat) (st : CrawlState),
      UuidWF st.cat st.next_uuid → u < st.next_uuid →
      UuidWF (Crawl.large_file cfg st u fs count).cat
          (Crawl.large_file cfg st u fs count).next_uuid ∧
        st.next_uuid ≤ (Crawl.large_file cfg st u fs count).next_uuid := by
  intro count
  induction count with
  | zero => intro st h hu; exact ⟨h, Nat.le_refl _⟩
  | succ n ih =>
    intro st h hu
    rw [Crawl.large_file, List.range_succ, List.foldl_append]
    rw [show (List.range n).foldl _ st = Crawl.large_file cfg st u fs n
          from rfl]
    simp only [List.foldl_cons, List.foldl_nil]
    obtain ⟨⟨w1, w2, w3, w4⟩, hle⟩ := ih st h hu
    by_cases hg : (Catalog.chunksFindByFileUuidAndIndex
        (Crawl.large_file cfg st u fs n).cat u n).isSome = true
    · rw [if_pos hg]
      exact ⟨⟨w1, w2, w3, w4⟩, hle⟩
    · rw [if_neg hg]
      simp only [Catalog.chunksInsert]
      refine ⟨⟨?_, ?_, w3, ?_⟩, by omega⟩
      · intro f hf
        exact Nat.lt_succ_of_lt (w1 f hf)
      · intro c hc
        rcases List.mem_append.mp hc with h1 | h1
        · exact ⟨Nat.lt_succ_of_lt (w2 c h1).1, Nat.lt_succ_of_lt (w2 c h1).2⟩
        · simp only [List.mem_singleton] at h1
          subst h1
          exact ⟨Nat.lt_succ_self _, by simp only; omega⟩
      · rw [List.map_append]
        refine nodup_append_singleton w4 ?_
        intro hmem
        obtain ⟨c, hc, he⟩ := List.mem_map.mp hmem
        have h2 : c.uuid = (Crawl.large_file cfg st u fs n).next_uuid := he
        have h1 := (w2 c hc).1
        omega

theorem new_aggregate_eta (st : CrawlState) (fs : Nat) :
    Crawl.new_aggregate st fs =
      { cat := { files := st.cat.files ++ [aggFileRow st.next_uuid],
                 chunks := st.cat.chunks ++ [aggChunkRow st.next_uuid],
                 aggregates := st.cat.aggregates,
                 inodes := st.cat.inodes,
                 next_inode_id := st.cat.next_inode_id },
        next_uuid := st.next_uuid + 3,
        current_aggregate :=
          some ([PathName.tarUuid (st.next_uuid + 1)], fs) } := rfl

theorem new_aggregate_uuidWF (st : CrawlState) (fs : Nat)
    (h : UuidWF st.cat st.next_uuid) :
    UuidWF (Crawl.new_aggregate st fs).cat
        (Crawl.new_aggregate st fs).next_uuid ∧
      st.next_uuid ≤ (Crawl.new_aggregate st fs).next_uuid := by
  obtain ⟨w1, w2, w3, w4⟩ := h
  rw [new_aggregate_eta]
  dsimp only
  refine ⟨⟨?_, ?_, ?_, ?_⟩, by omega⟩
  · intro f hf
    rcases List.mem_append.mp hf with h1 | h1
    · have := w1 f h1
      omega
    · simp only [List.mem_singleton] at h1
      subst h1
      simp only [aggFileRow]
      omega
  · intro c hc
    rcases List.mem_append.mp hc with h1 | h1
    · have := w2 c h1
      omega
    · simp only [List.mem_singleton] at h1
      subst h1
      simp only [aggChunkRow]
      omega
  · rw [List.map_append]
    refine nodup_append_singleton w3 ?_
    intro hmem
    obtain ⟨f, hf, he⟩ := List.mem_map.mp hmem
    have h2 : f.uuid = st.next_uuid := he
    have h1 := w1 f hf
    omega
  · rw [List.map_append]
    refine nodup_append_singleton w4 ?_
    intro hmem
    obtain ⟨c, hc, he⟩ := List.mem_map.mp hmem
    have h2 : c.uuid = st.next_uuid + 2 := he
    have h1 := (w2 c hc).1
    omega

theorem get_aggregate_path_uuidWF (cfg : CrawlConfig) (st : CrawlState)
    (fs : Nat) (h : UuidWF st.cat st.next_uuid) :
    UuidWF (Crawl.get_aggregate_path cfg st fs).2.cat
        (Crawl.get_aggregate_path cfg st fs).2.next_uuid ∧
      st.next_uuid ≤ (Crawl.get_aggregate_path cfg st fs).2.next_uuid := by
  rw [Crawl.get_aggregate_path]
  cases st.current_aggregate with
  | none => exact new_aggregate_uuidWF st fs h
  | some a =>
    dsimp only
    by_cases hsz : a.2 + fs > cfg.aggregate_size
    · rw [if_pos hsz]
      exact new_aggregate_uuidWF st fs h
    · rw [if_neg hsz]
      exact ⟨h, Nat.le_refl _⟩

theorem small_file_uuidWF (cfg : CrawlConfig) (st : CrawlState)
    (p : List PathName) (fs : Nat) (h : UuidWF st.cat st.next_uuid) :
    UuidWF (Crawl.small_file cfg st p fs).cat
        (Crawl.small_file cfg st p fs).next_uuid ∧
      st.next_uuid ≤ (Crawl.small_file cfg st p fs).next_uuid := by
  rw [Crawl.small_file]
  by_cases hg : (st.cat.aggregatesFindByFilePath p).isSome = true
  · rw [if_pos hg]
    exact ⟨h, Nat.le_refl _⟩
  · rw [if_neg hg]
    obtain ⟨hw, hle⟩ := get_aggregate_path_uuidWF cfg st fs h
    exact ⟨⟨hw.1, hw.2.1, hw.2.2.1, hw.2.2.2⟩, hle⟩

theorem fuseInsert_uuidWF (cat : Catalog) (u : Nat) (p : List PathName)
    (nu : Nat) (h : UuidWF cat nu) : UuidWF (cat.fuseInsert u p) nu := by
  obtain ⟨h1, h2, h3⟩ := fuseInsert_chunks cat u p
  exact ⟨fun f hf => h.1 f (h2 ▸ hf), fun c hc => h.2.1 c (h1 ▸ hc),
    h2 ▸ h.2.2.1, h1 ▸ h.2.2.2⟩

theorem visit_file_uuidWF (cfg : CrawlConfig) (st : CrawlState)
    (e : List PathName × Nat) (h : UuidWF st.cat st.next_uuid) :
    UuidWF (Crawl.visit_file cfg st e).cat
        (Crawl.visit_file cfg st e).next_uuid ∧
      st.next_uuid ≤ (Crawl.visit_file cfg st e).next_uuid := by
  obtain ⟨p, N⟩ := e
  rw [Crawl.visit_file]
  by_cases hig : cfg.ignored p = true
  · rw [if_pos hig]
    exact ⟨h, Nat.le_refl _⟩
  · rw [if_neg hig]
    cases hfind : st.cat.filesFindByPath p with
    | some f =>
      dsimp only
      have hfu : f.uuid < st.next_uuid :=
        h.1 f (List.mem_of_find?_eq_some hfind)
      by_cases hsz : cfg.aggregate_min_size ≤ N
      · rw [if_pos hsz]
        exact large_file_uuidWF cfg f.uuid N _ st h hfu
      · rw [if_neg hsz]
        exact small_file_uuidWF cfg st f.path N h
    | none =>
      dsimp only
      have hwf1 : UuidWF ((st.cat.filesInsert
          { uuid := st.next_uuid, path := p, size := N, sha256 := none,
            chunks := chunksCount cfg.chunk_size N,
            mode := if N < cfg.aggregate_min_size then Mode.Aggregated
              else Mode.Chunked,
            status := Status.Pending }).fuseInsert st.next_uuid p)
          (st.next_uuid + 1) := by
        refine fuseInsert_uuidWF _ _ _ _ ⟨?_, ?_, ?_, h.2.2.2⟩
        · intro f hf
          rcases List.mem_append.mp hf with h1 | h1
          · exact Nat.lt_succ_of_lt (h.1 f h1)
          · simp only [List.mem_singleton] at h1
            subst h1
            exact Nat.lt_succ_self _
        · intro c hc
          have := h.2.1 c hc
          omega
        · rw [Catalog.filesInsert]
          simp only [List.map_append]
          refine nodup_append_singleton h.2.2.1 ?_
          intro hmem
          obtain ⟨f, hf, he⟩ := List.mem_map.mp hmem
          have h2 : f.uuid = st.next_uuid := he
          have h1 := h.1 f hf
          omega
      by_cases hsz : cfg.aggregate_min_size ≤ N
      · rw [if_pos hsz]
        have := large_file_uuidWF cfg st.next_uuid N
          (chunksCount cfg.chunk_size N)
          { cat := (st.cat.filesInsert
              { uuid := st.next_uuid, path := p, size := N, sha256 := none,
                chunks := chunksCount cfg.chunk_size N,
                mode := if N < cfg.aggregate_min_size then Mode.Aggregated
                  else Mode.Chunked,
                status := Status.Pending }).fuseInsert st.next_uuid p,
            next_uuid := st.next_uuid + 1,
            current_aggregate := st.current_aggregate }
          hwf1 (Nat.lt_succ_self _)
        exact ⟨this.1, Nat.le_trans (Nat.le_succ _) this.2⟩
      · rw [if_neg hsz]
        have := small_file_uuidWF cfg
          { cat := (st.cat.filesInsert
              { uuid := st.next_uuid, path := p, size := N, sha256 := none,
                chunks := chunksCount cfg.chunk_size N,
                mode := if N < cfg.aggregate_min_size then Mode.Aggregated
                  else Mode.Chunked,
                status := Status.Pending }).fuseInsert st.next_uuid p,
            next_uuid := st.next_uuid + 1,
            current_aggregate := st.current_aggregate } p N hwf1
        exact ⟨this.1, Nat.le_trans (Nat.le_succ _) this.2⟩

theorem fold_visit_uuidWF (cfg : CrawlConfig) :
    ∀ (tree : List (List PathName × Nat)) (st : CrawlState),
      UuidWF st.cat st.next_uuid →
      UuidWF ((tree.foldl (Crawl.visit_file cfg) st)).cat
        ((tree.foldl (Crawl.visit_file cfg) st)).next_uuid := by
  intro tree
  induction tree with
  | nil => intro st h; exact h
  | cons e t ih =>
    intro st h
    rw [List.foldl_cons]
    exact ih _ (visit_file_uuidWF cfg st e h).1

theorem pushReach_refl (cat : Catalog) : PushReach cat cat :=
  ⟨id, id, fun g => ⟨rfl, rfl, rfl, rfl, rfl⟩,
    fun c => ⟨rfl, rfl, rfl, rfl, rfl⟩,
    (List.map_id _).symm, (List.map_id _).symm, rfl⟩

theorem pushReach_trans {a b c : Catalog} (h1 : PushReach a b)
    (h2 : PushReach b c) : PushReach a c := by
  obtain ⟨F1, H1, hF1, hH1, e1, e2, e3⟩ := h1
  obtain ⟨F2, H2, hF2, hH2, g1, g2, g3⟩ := h2
  refine ⟨F2 ∘ F1, H2 ∘ H1, ?_, ?_, ?_, ?_, ?_⟩
  · intro g
    obtain ⟨a1, a2, a3, a4, a5⟩ := hF1 g
    obtain ⟨b1, b2, b3, b4, b5⟩ := hF2 (F1 g)
    exact ⟨b1.trans a1, b2.trans a2, b3.trans a3, b4.trans a4, b5.trans a5⟩
  · intro x
    obtain ⟨a1, a2, a3, a4, a5⟩ := hH1 x
    obtain ⟨b1, b2, b3, b4, b5⟩ := hH2 (H1 x)
    exact ⟨b1.trans a1, b2.trans a2, b3.trans a3, b4.trans a4, b5.trans a5⟩
  · rw [g1, e1, List.map_map]
  · rw [g2, e2, List.map_map]
  · rw [g3, e3]

theorem markFileF_shape (u : Nat) (sha : Option (List Nat)) :
    FileShapeF (markFileF u sha) := by
  intro g
  rw [markFileF]
  split <;> exact ⟨rfl, rfl, rfl, rfl, rfl⟩

theorem markChunkF_shape (u : Nat) (sha : Option (List Nat)) (sz : Nat) :
    ChunkShapeF (markChunkF u sha sz) := by
  intro x
  rw [markChunkF]
  split <;> exact ⟨rfl, rfl, rfl, rfl, rfl⟩

theorem process_chunk_reach (f : FileRow) (content : List Nat)
    (acc : PushAcc) (c : ChunkRow) :
    PushReach acc.cat (Push.process_chunk f content acc c).cat := by
  rw [Push.process_chunk]
  by_cases hr : ((content.drop c.offset).take c.payload_size).length ≠
      c.payload_size
  · rw [if_pos hr]
    exact pushReach_refl _
  · rw [if_neg hr]
    dsimp only
    by_cases hall : ((Catalog.chunksFindByFileUuid
        (acc.cat.chunksMarkDone c.uuid
          (some ((content.drop c.offset).take c.payload_size))
          ((content.drop c.offset).take c.payload_size).length)
        c.file_uuid).all (fun s => s.status == Status.Done)) = true
    · rw [if_pos hall]
      exact ⟨markFileF c.file_uuid
          ((acc.hash.update ((content.drop c.offset).take c.payload_size)
            c.idx).finalize).1,
        markChunkF c.uuid
          (some ((content.drop c.offset).take c.payload_size))
          ((content.drop c.offset).take c.payload_size).length,
        markFileF_shape _ _, markChunkF_shape _ _ _, rfl, rfl, rfl⟩
    · rw [if_neg hall]
      exact ⟨id,
        markChunkF c.uuid
          (some ((content.drop c.offset).take c.payload_size))
          ((content.drop c.offset).take c.payload_size).length,
        fun g => ⟨rfl, rfl, rfl, rfl, rfl⟩, markChunkF_shape _ _ _,
        (List.map_id _).symm, rfl, rfl⟩

theorem foldl_reach {β : Type} (step : PushAcc → β → PushAcc)
    (hstep : ∀ acc b, PushReach acc.cat (step acc b).cat) :
    ∀ (l : List β) (acc : PushAcc),
      PushReach acc.cat (List.foldl step acc l).cat := by
  intro l
  induction l with
  | nil => intro acc; exact pushReach_refl _
  | cons b t ih =>
    intro acc
    rw [List.foldl_cons]
    exact pushReach_trans (hstep acc b) (ih (step acc b))

theorem process_file_reach (fsrc : List PathName → Option (List Nat))
    (acc : PushAcc) (f : FileRow) :
    PushReach acc.cat (Push.process_file fsrc acc f).cat := by
  rw [Push.process_file]
  cases fsrc f.path with
  | none => exact pushReach_refl _
  | some content =>
    dsimp only
    exact foldl_reach _ (process_chunk_reach f content) _ _

theorem push_run_reach (fsrc : List PathName → Option (List Nat))
    (cat : Catalog) (store : List (Nat × List Nat)) :
    PushReach cat (Push.run fsrc cat store).cat :=
  foldl_reach _ (process_file_reach fsrc) _ _

theorem filesFind_map {F : FileRow → FileRow} (hF : FileShapeF F)
    (l : List FileRow) (p : List PathName) :
    (l.map F).find? (fun g => g.path == p) =
      (l.find? (fun g => g.path == p)).map F := by
  induction l with
  | nil => rfl
  | cons a t ih =>
    rw [List.map_cons]
    by_cases ha : (a.path == p) = true
    · rw [List.find?_cons_of_pos (t.map F)
        (show ((F a).path == p) = true by rw [(hF a).2.1]; exact ha)]
      rw [List.find?_cons_of_pos t ha]
      rfl
    · rw [List.find?_cons_of_neg (t.map F)
        (show ¬((F a).path == p) = true by rw [(hF a).2.1]; exact ha)]
      rw [List.find?_cons_of_neg t ha]
      exact ih

theorem chunksFind_map {H : ChunkRow → ChunkRow} (hH : ChunkShapeF H)
    (l : List ChunkRow) (u i : Nat) :
    (l.map H).find? (fun c => c.file_uuid == u && c.idx == i) =
      (l.find? (fun c => c.file_uuid == u && c.idx == i)).map H := by
  induction l with
  | nil => rfl
  | cons a t ih =>
    rw [List.map_cons]
    have hpred : ((H a).file_uuid == u && (H a).idx == i) =
        (a.file_uuid == u && a.idx == i) := by
      rw [(hH a).2.1, (hH a).2.2.1]
    by_cases ha : (a.file_uuid == u && a.idx == i) = true
    · rw [List.find?_cons_of_pos (t.map H)
        (show ((H a).file_uuid == u && (H a).idx == i) = true by
          rw [hpred]; exact ha)]
      rw [List.find?_cons_of_pos t ha]
      rfl
    · rw [List.find?_cons_of_neg (t.map H)
        (show ¬((H a).file_uuid == u && (H a).idx == i) = true by
          rw [hpred]; exact ha)]
      rw [List.find?_cons_of_neg t ha]
      exact ih

theorem visitDone_pushReach {cfg : CrawlConfig} {cat cat' : Catalog}
    {e : List PathName × Nat} (hR : PushReach cat cat')
    (hd : VisitDone cfg cat e) : VisitDone cfg cat' e := by
  obtain ⟨F, H, hF, hH, e1, e2, e3⟩ := hR
  rcases hd with h1 | ⟨f, hf, hch, hag⟩
  · exact Or.inl h1
  · refine Or.inr ⟨F f, ?_, ?_, ?_⟩
    · rw [Catalog.filesFindByPath, e1, filesFind_map hF]
      rw [show cat.files.find? (fun g => g.path == e.1) = some f from hf]
      rfl
    · intro hs i hi
      have := hch hs i hi
      rw [Catalog.chunksFindByFileUuidAndIndex, e2, (hF f).1,
        chunksFind_map hH]
      obtain ⟨c, hc⟩ := Option.isSome_iff_exists.mp this
      rw [show cat.chunks.find?
        (fun c => c.file_uuid == f.uuid && c.idx == i) = some c from hc]
      rfl
    · intro hs
      rw [Catalog.aggregatesFindByFilePath, e3]
      exact hag hs

theorem uuidWF_pushReach {cat cat' : Catalog} {nu : Nat}
    (hR : PushReach cat cat') (h : UuidWF cat nu) : UuidWF cat' nu := by
  obtain ⟨F, H, hF, hH, e1, e2, -⟩ := hR
  have hmf : cat'.files.map (fun f => f.uuid) =
      cat.files.map (fun f => f.uuid) := by
    rw [e1, List.map_map]
    exact List.map_congr_left (fun a _ => (hF a).1)
  have hmc : cat'.chunks.map (fun c => c.uuid) =
      cat.chunks.map (fun c => c.uuid) := by
    rw [e2, List.map_map]
    exact List.map_congr_left (fun a _ => (hH a).1)
  refine ⟨?_, ?_, hmf ▸ h.2.2.1, hmc ▸ h.2.2.2⟩
  · intro f hf
    rw [e1] at hf
    obtain ⟨g, hg, rfl⟩ := List.mem_map.mp hf
    rw [(hF g).1]
    exact h.1 g hg
  · intro c hc
    rw [e2] at hc
    obtain ⟨x, hx, rfl⟩ := List.mem_map.mp hc
    rw [(hH x).1, (hH x).2.1]
    exact h.2.1 x hx

theorem nodup_map_inj {α β : Type} {f : α → β} :
    ∀ {l : List α}, (l.map f).Nodup →
      ∀ x ∈ l, ∀ y ∈ l, f x = f y → x = y := by
  intro l
  induction l with
  | nil => intro _ x hx; exact absurd hx (List.not_mem_nil x)
  | cons a t ih =>
    intro h x hx y hy hfe
    rw [List.map_cons, List.nodup_cons] at h
    rcases List.mem_cons.mp hx with rfl | hx'
    · rcases List.mem_cons.mp hy with rfl | hy'
      · rfl
      · have hm : f y ∈ t.map f := List.mem_map_of_mem f hy'
        rw [← hfe] at hm
        exact absurd hm h.1
    · rcases List.mem_cons.mp hy with rfl | hy'
      · have hm : f x ∈ t.map f := List.mem_map_of_mem f hx'
        rw [hfe] at hm
        exact absurd hm h.1
      · exact ih h.2 x hx' y hy' hfe

theorem markFileF_done (u : Nat) (sha : Option (List Nat)) (g : FileRow)
    (h : g.uuid = u) : (markFileF u sha g).status = Status.Done := by
  simp [markFileF, h]

theorem markFileF_ne (u : Nat) (sha : Option (List Nat)) (g : FileRow)
    (h : g.uuid ≠ u) : markFileF u sha g = g := by
  simp [markFileF, h]

theorem markChunkF_done (u : Nat) (sha : Option (List Nat)) (sz : Nat)
    (x : ChunkRow) (h : x.uuid = u) :
    (markChunkF u sha sz x).status = Status.Done := by
  simp [markChunkF, h]

theorem markChunkF_ne (u : Nat) (sha : Option (List Nat)) (sz : Nat)
    (x : ChunkRow) (h : x.uuid ≠ u) : markChunkF u sha sz x = x := by
  simp [markChunkF, h]

theorem mapped_chunk_done (cat : Catalog) (c : ChunkRow)
    (hinv : StatusInv cat) (sha : Option (List Nat)) (sz : Nat)
    (g : FileRow) (hg : g ∈ cat.files) (hdone : g.status = Status.Done)
    (x : ChunkRow) (hx : x ∈ cat.chunks)
    (hfu : (markChunkF c.uuid sha sz x).file_uuid = g.uuid) :
    (markChunkF c.uuid sha sz x).status = Status.Done := by
  by_cases hxu : x.uuid = c.uuid
  · exact markChunkF_done c.uuid sha sz x hxu
  · rw [markChunkF_ne _ _ _ _ hxu] at hfu ⊢
    exact hinv.1 g hg hdone x hx hfu

theorem fileDone_of_mapped_chunks (cat : Catalog) (c : ChunkRow)
    (hinv : StatusInv cat)
    (hc : ∀ x ∈ cat.chunks, x.uuid = c.uuid → x.file_uuid = c.file_uuid)
    (sha : Option (List Nat)) (sz : Nat) (g : FileRow) (hg : g ∈ cat.files)
    (hgu : g.uuid ≠ c.file_uuid)
    (hex : ∃ x ∈ cat.chunks.map (markChunkF c.uuid sha sz),
      x.file_uuid = g.uuid)
    (hallc : ∀ x ∈ cat.chunks.map (markChunkF c.uuid sha sz),
      x.file_uuid = g.uuid → x.status = Status.Done) :
    g.status = Status.Done := by
  refine hinv.2 g hg ?_ ?_
  · obtain ⟨x', hx', hfu⟩ := hex
    obtain ⟨x, hx, rfl⟩ := List.mem_map.mp hx'
    refine ⟨x, hx, ?_⟩
    rw [← (markChunkF_shape c.uuid sha sz x).2.1]
    exact hfu
  · intro x hx hxf
    have hxu : x.uuid ≠ c.uuid := by
      intro he
      apply hgu
      rw [← hxf]
      exact hc x hx he
    have hid : markChunkF c.uuid sha sz x = x := markChunkF_ne _ _ _ _ hxu
    have hd := hallc (markChunkF c.uuid sha sz x) (List.mem_map_of_mem _ hx)
      (by rw [hid]; exact hxf)
    rw [hid] at hd
    exact hd

theorem statusInv_markChunk (cat : Catalog) (c : ChunkRow)
    (hinv : StatusInv cat)
    (hc : ∀ x ∈ cat.chunks, x.uuid = c.uuid → x.file_uuid = c.file_uuid)
    (sha : Option (List Nat)) (sz : Nat)
    (hall : ¬ ((cat.chunksMarkDone c.uuid sha sz).chunksFindByFileUuid
        c.file_uuid).all (fun s => s.status == Status.Done) = true) :
    StatusInv (cat.chunksMarkDone c.uuid sha sz) := by
  constructor
  · intro g hg hdone x' hx' hfu
    simp only [Catalog.chunksMarkDone] at hg hx'
    obtain ⟨x, hx, rfl⟩ := List.mem_map.mp hx'
    exact mapped_chunk_done cat c hinv sha sz g hg hdone x hx hfu
  · intro g hg hex hallc
    simp only [Catalog.chunksMarkDone] at hg hex hallc
    by_cases hgu : g.uuid = c.file_uuid
    · exfalso
      apply hall
      rw [List.all_eq_true]
      intro s hs
      rw [Catalog.chunksFindByFileUuid] at hs
      simp only [Catalog.chunksMarkDone] at hs
      have hsm := (List.mem_filter.mp hs).1
      have hsf : (s.file_uuid == c.file_uuid) = true :=
        (List.mem_filter.mp hs).2
      have hse : s.file_uuid = g.uuid := by
        rw [hgu]
        exact beq_iff_eq.mp hsf
      have hsd := hallc s hsm hse
      show (s.status == Status.Done) = true
      rw [hsd]
      rfl
    · exact fileDone_of_mapped_chunks cat c hinv hc sha sz g hg hgu hex hallc

theorem statusInv_markBoth (cat : Catalog) (c : ChunkRow)
    (hinv : StatusInv cat)
    (hc : ∀ x ∈ cat.chunks, x.uuid = c.uuid → x.file_uuid = c.file_uuid)
    (sha : Option (List Nat)) (sz : Nat) (dg : Option (List Nat))
    (hall : ((cat.chunksMarkDone c.uuid sha sz).chunksFindByFileUuid
        c.file_uuid).all (fun s => s.status == Status.Done) = true) :
    StatusInv ((cat.chunksMarkDone c.uuid sha sz).filesMarkDone
      c.file_uuid dg) := by
  rw [List.all_eq_true] at hall
  constructor
  · intro g' hg' hdone x' hx' hfu
    simp only [Catalog.filesMarkDone, Catalog.chunksMarkDone] at hg' hx'
    obtain ⟨g, hg, rfl⟩ := List.mem_map.mp hg'
    obtain ⟨x, hx, rfl⟩ := List.mem_map.mp hx'
    by_cases hgu : g.uuid = c.file_uuid
    · have hxf : (markChunkF c.uuid sha sz x).file_uuid = c.file_uuid := by
        rw [hfu, (markFileF_shape c.file_uuid dg g).1, hgu]
      have hmem : markChunkF c.uuid sha sz x ∈
          (cat.chunksMarkDone c.uuid sha sz).chunksFindByFileUuid
            c.file_uuid := by
        rw [Catalog.chunksFindByFileUuid]
        simp only [Catalog.chunksMarkDone]
        exact List.mem_filter.mpr
          ⟨List.mem_map_of_mem _ hx, beq_iff_eq.mpr hxf⟩
      exact beq_iff_eq.mp (hall _ hmem)
    · rw [markFileF_ne _ _ _ hgu] at hdone hfu
      exact mapped_chunk_done cat c hinv sha sz g hg hdone x hx hfu
  · intro g' hg' hex hallc
    simp only [Catalog.filesMarkDone, Catalog.chunksMarkDone]
      at hg' hex hallc
    obtain ⟨g, hg, rfl⟩ := List.mem_map.mp hg'
    by_cases hgu : g.uuid = c.file_uuid
    · exact markFileF_done c.file_uuid dg g hgu
    · rw [markFileF_ne _ _ _ hgu] at hex hallc ⊢
      exact fileDone_of_mapped_chunks cat c hinv hc sha sz g hg hgu hex hallc

theorem process_chunk_statusInv (f : FileRow) (content : List Nat)
    (acc : PushAcc) (c : ChunkRow) (hinv : StatusInv acc.cat)
    (hc : ∀ x ∈ acc.cat.chunks, x.uuid = c.uuid →
      x.file_uuid = c.file_uuid) :
    StatusInv (Push.process_chunk f content acc c).cat := by
  rw [Push.process_chunk]
  by_cases hr : ((content.drop c.offset).take c.payload_size).length ≠
      c.payload_size
  · rw [if_pos hr]
    exact hinv
  · rw [if_neg hr]
    dsimp only
    by_cases hall : ((Catalog.chunksFindByFileUuid
        (acc.cat.chunksMarkDone c.uuid
          (some ((content.drop c.offset).take c.payload_size))
          ((content.drop c.offset).take c.payload_size).length)
        c.file_uuid).all (fun s => s.status == Status.Done)) = true
    · rw [if_pos hall]
      exact statusInv_markBoth acc.cat c hinv hc _ _ _ hall
    · rw [if_neg hall]
      exact statusInv_markChunk acc.cat c hinv hc _ _ hall

theorem chunkUuids_pushReach {cat cat' : Catalog} (hR : PushReach cat cat') :
    cat'.chunks.map (fun x => x.uuid) = cat.chunks.map (fun x => x.uuid) := by
  obtain ⟨F, H, hF, hH, e1, e2, e3⟩ := hR
  rw [e2, List.map_map]
  exact List.map_congr_left (fun a _ => (hH a).1)

theorem foldl_chunks_statusInv (f : FileRow) (content : List Nat)
    (cat0 : Catalog)
    (hnd : (cat0.chunks.map (fun x => x.uuid)).Nodup) :
    ∀ (l : List ChunkRow) (acc : PushAcc),
      (∀ c ∈ l, c ∈ cat0.chunks) →
      PushReach cat0 acc.cat → StatusInv acc.cat →
      StatusInv ((l.foldl (Push.process_chunk f content) acc)).cat := by
  intro l
  induction l with
  | nil => intro acc _ _ h; exact h
  | cons c t ih =>
    intro acc hmem hreach hinv
    rw [List.foldl_cons]
    have hc0 : c ∈ cat0.chunks := hmem c (List.mem_cons_self _ _)
    have hc : ∀ x ∈ acc.cat.chunks, x.uuid = c.uuid →
        x.file_uuid = c.file_uuid := by
      obtain ⟨F, H, hF, hH, e1, e2, e3⟩ := hreach
      intro x hx hxu
      rw [e2] at hx
      obtain ⟨y, hy, rfl⟩ := List.mem_map.mp hx
      rw [(hH y).2.1]
      rw [(hH y).1] at hxu
      rw [nodup_map_inj hnd y hy c hc0 hxu]
    exact ih (Push.process_chunk f content acc c)
      (fun x hx => hmem x (List.mem_cons_of_mem _ hx))
      (pushReach_trans hreach (process_chunk_reach f content acc c))
      (process_chunk_statusInv f content acc c hinv hc)

theorem process_file_statusInv (fsrc : List PathName → Option (List Nat))
    (acc : PushAcc) (f : FileRow) (cat0 : Catalog)
    (hnd : (cat0.chunks.map (fun x => x.uuid)).Nodup)
    (hreach : PushReach cat0 acc.cat) (hinv : StatusInv acc.cat) :
    StatusInv (Push.process_file fsrc acc f).cat := by
  rw [Push.process_file]
  cases fsrc f.path with
  | none => exact hinv
  | some content =>
    dsimp only
    have hnd' : (acc.cat.chunks.map (fun x => x.uuid)).Nodup := by
      rw [chunkUuids_pushReach hreach]
      exact hnd
    exact foldl_chunks_statusInv f content acc.cat hnd' _ _
      (fun x hx => List.mem_of_mem_filter hx) (pushReach_refl _) hinv

theorem foldl_files_statusInv (fsrc : List PathName → Option (List Nat))
    (cat0 : Catalog)
    (hnd : (cat0.chunks.map (fun x => x.uuid)).Nodup) :
    ∀ (l : List FileRow) (acc : PushAcc),
      PushReach cat0 acc.cat → StatusInv acc.cat →
      StatusInv ((l.foldl (Push.process_file fsrc) acc)).cat := by
  intro l
  induction l with
  | nil => intro acc _ h; exact h
  | cons f t ih =>
    intro acc hreach hinv
    rw [List.foldl_cons]
    have hnd' : (acc.cat.chunks.map (fun x => x.uuid)).Nodup := by
      rw [chunkUuids_pushReach hreach]
      exact hnd
    exact ih (Push.process_file fsrc acc f)
      (pushReach_trans hreach (process_file_reach fsrc acc f))
      (process_file_statusInv fsrc acc f acc.cat hnd' (pushReach_refl _) hinv)

theorem push_run_statusInv (fsrc : List PathName → Option (List Nat))
    (cat : Catalog) (store : List (Nat × List Nat))
    (hnd : (cat.chunks.map (fun x => x.uuid)).Nodup)
    (hinv : StatusInv cat) :
    StatusInv (Push.run fsrc cat store).cat := by
  rw [Push.run]
  exact foldl_files_statusInv fsrc cat hnd _ _ (pushReach_refl _) hinv

theorem allPending_empty : AllPending emptyCatalog :=
  ⟨fun f hf => absurd hf (List.not_mem_nil f),
   fun c hc => absurd hc (List.not_mem_nil c)⟩

theorem uuidWF_empty (nu : Nat) : UuidWF emptyCatalog nu :=
  ⟨fun f hf => absurd hf (List.not_mem_nil f),
   fun c hc => absurd hc (List.not_mem_nil c),
   List.nodup_nil, List.nodup_nil⟩

theorem statusInv_empty : StatusInv emptyCatalog :=
  ⟨fun f hf => absurd hf (List.not_mem_nil f),
   fun f hf => absurd hf (List.not_mem_nil f)⟩

theorem statusInv_filesInsert (cat : Catalog) (g : FileRow)
    (hinv : StatusInv cat) (hg : g.status = Status.Pending)
    (hfresh : ∀ c ∈ cat.chunks, c.file_uuid ≠ g.uuid) :
    StatusInv (cat.filesInsert g) := by
  constructor
  · intro f hf hd c hc hcf
    simp only [Catalog.filesInsert] at hf hc
    rcases List.mem_append.mp hf with h1 | h1
    · exact hinv.1 f h1 hd c hc hcf
    · simp only [List.mem_singleton] at h1
      subst h1
      rw [hg] at hd
      exact absurd hd (by decide)
  · intro f hf hex hall
    simp only [Catalog.filesInsert] at hf hex hall
    rcases List.mem_append.mp hf with h1 | h1
    · exact hinv.2 f h1 hex hall
    · simp only [List.mem_singleton] at h1
      subst h1
      obtain ⟨c, hc, hcf⟩ := hex
      exact absurd hcf (hfresh c hc)

theorem statusInv_chunksInsert (cat : Catalog) (x : ChunkRow)
    (hinv : StatusInv cat) (hx : x.status = Status.Pending)
    (hpend : ∀ g ∈ cat.files, g.uuid = x.file_uuid →
      g.status = Status.Pending) :
    StatusInv (cat.chunksInsert x) := by
  constructor
  · intro f hf hd c hc hcf
    simp only [Catalog.chunksInsert] at hf hc
    rcases List.mem_append.mp hc with h1 | h1
    · exact hinv.1 f hf hd c h1 hcf
    · simp only [List.mem_singleton] at h1
      subst h1
      have := hpend f hf hcf.symm
      rw [this] at hd
      exact absurd hd (by decide)
  · intro f hf hex hall
    simp only [Catalog.chunksInsert] at hf hex hall
    by_cases hfu : f.uuid = x.file_uuid
    · have hxd := hall x
        (List.mem_append.mpr (Or.inr (List.mem_singleton_self x))) hfu.symm
      rw [hx] at hxd
      exact absurd hxd (by decide)
    · refine hinv.2 f hf ?_ ?_
      · obtain ⟨c, hc, hcf⟩ := hex
        rcases List.mem_append.mp hc with h1 | h1
        · exact ⟨c, h1, hcf⟩
        · simp only [List.mem_singleton] at h1
          subst h1
          exact absurd hcf.symm hfu
      · intro c hc hcf
        exact hall c (List.mem_append.mpr (Or.inl hc)) hcf

theorem statusInv_fuseInsert (cat : Catalog) (u : Nat) (p : List PathName)
    (hinv : StatusInv cat) : StatusInv (cat.fuseInsert u p) := by
  obtain ⟨h1, h2, -⟩ := fuseInsert_chunks cat u p
  constructor
  · intro f hf hd c hc hcf
    exact hinv.1 f (h2 ▸ hf) hd c (h1 ▸ hc) hcf
  · intro f hf hex hall
    rw [h2] at hf
    rw [h1] at hex hall
    exact hinv.2 f hf hex hall

theorem new_aggregate_files (st : CrawlState) (fs : Nat) :
    (Crawl.new_aggregate st fs).cat.files =
      st.cat.files ++ [aggFileRow st.next_uuid] := rfl

theorem statusInv_new_aggregate (st : CrawlState) (fs : Nat)
    (hinv : StatusInv st.cat) (hwf : UuidWF st.cat st.next_uuid) :
    StatusInv (Crawl.new_aggregate st fs).cat := by
  rw [Crawl.new_aggregate]
  dsimp only
  apply statusInv_chunksInsert
  · apply statusInv_filesInsert st.cat _ hinv rfl
    intro c hc
    have := hwf.2.1 c hc
    show c.file_uuid ≠ st.next_uuid
    omega
  · rfl
  · intro g hg hgu
    simp only [Catalog.filesInsert] at hg
    rcases List.mem_append.mp hg with h1 | h1
    · have := hwf.1 g h1
      have h2 : g.uuid = st.next_uuid := hgu
      omega
    · simp only [List.mem_singleton] at h1
      subst h1
      rfl

theorem statusInv_get_aggregate_path (cfg : CrawlConfig) (st : CrawlState)
    (fs : Nat) (hinv : StatusInv st.cat)
    (hwf : UuidWF st.cat st.next_uuid) :
    StatusInv (Crawl.get_aggregate_path cfg st fs).2.cat := by
  rw [Crawl.get_aggregate_path]
  cases st.current_aggregate with
  | none =>
    dsimp only
    exact statusInv_new_aggregate st fs hinv hwf
  | some a =>
    dsimp only
    by_cases hover : a.2 + fs > cfg.aggregate_size
    · rw [if_pos hover]
      exact statusInv_new_aggregate st fs hinv hwf
    · rw [if_neg hover]
      exact hinv

theorem statusInv_small_file (cfg : CrawlConfig) (st : CrawlState)
    (p : List PathName) (fs : Nat) (hinv : StatusInv st.cat)
    (hwf : UuidWF st.cat st.next_uuid) :
    StatusInv (Crawl.small_file cfg st p fs).cat := by
  rw [Crawl.small_file]
  by_cases hl : (st.cat.aggregatesFindByFilePath p).isSome = true
  · rw [if_pos hl]
    exact hinv
  · rw [if_neg hl]
    exact statusInv_get_aggregate_path cfg st fs hinv hwf

theorem large_file_files (cfg : CrawlConfig) (u fs : Nat) :
    ∀ (count : Nat) (st : CrawlState),
      (Crawl.large_file cfg st u fs count).cat.files = st.cat.files := by
  intro count
  induction count with
  | zero => intro st; rfl
  | succ n ih =>
    intro st
    rw [Crawl.large_file, List.range_succ, List.foldl_append]
    rw [show (List.range n).foldl _ st = Crawl.large_file cfg st u fs n
          from rfl]
    simp only [List.foldl_cons, List.foldl_nil]
    by_cases hg : (Catalog.chunksFindByFileUuidAndIndex
        (Crawl.large_file cfg st u fs n).cat u n).isSome = true
    · rw [if_pos hg]
      exact ih st
    · rw [if_neg hg]
      exact ih st

theorem statusInv_large_file (cfg : CrawlConfig) (u fs : Nat) :
    ∀ (count : Nat) (st : CrawlState), StatusInv st.cat →
      (∀ g ∈ st.cat.files, g.uuid = u → g.status = Status.Pending) →
      StatusInv (Crawl.large_file cfg st u fs count).cat := by
  intro count
  induction count with
  | zero => intro st h _; exact h
  | succ n ih =>
    intro st hinv hpend
    rw [Crawl.large_file, List.range_succ, List.foldl_append]
    rw [show (List.range n).foldl _ st = Crawl.large_file cfg st u fs n
          from rfl]
    simp only [List.foldl_cons, List.foldl_nil]
    have hn := ih st hinv hpend
    by_cases hg : (Catalog.chunksFindByFileUuidAndIndex
        (Crawl.large_file cfg st u fs n).cat u n).isSome = true
    · rw [if_pos hg]
      exact hn
    · rw [if_neg hg]
      apply statusInv_chunksInsert _ _ hn rfl
      intro g hg' hgu
      rw [large_file_files cfg u fs n st] at hg'
      exact hpend g hg' hgu

theorem filesInsert_fuse_uuidWF (cat : Catalog) (g : FileRow)
    (p : List PathName) (nu : Nat) (h : UuidWF cat nu) (hg : g.uuid = nu) :
    UuidWF ((cat.filesInsert g).fuseInsert g.uuid p) (nu + 1) := by
  refine fuseInsert_uuidWF _ _ _ _ ⟨?_, ?_, ?_, h.2.2.2⟩
  · intro f hf
    rcases List.mem_append.mp hf with h1 | h1
    · exact Nat.lt_succ_of_lt (h.1 f h1)
    · simp only [List.mem_singleton] at h1
      subst h1
      omega
  · intro c hc
    have := h.2.1 c hc
    omega
  · rw [Catalog.filesInsert]
    simp only [List.map_append]
    refine nodup_append_singleton h.2.2.1 ?_
    intro hmem
    obtain ⟨f, hf, he⟩ := List.mem_map.mp hmem
    have h2 : f.uuid = g.uuid := he
    have h1 := h.1 f hf
    omega

theorem pendExt_refl (cat : Catalog) : PendExt cat cat :=
  ⟨catExtends_refl _, fun g hg => Or.inl hg⟩

theorem pendExt_trans {a b c : Catalog} (h1 : PendExt a b)
    (h2 : PendExt b c) : PendExt a c := by
  refine ⟨catExtends_trans h1.1 h2.1, ?_⟩
  intro g hg
  rcases h2.2 g hg with hm | hp
  · exact h1.2 g hm
  · exact Or.inr hp

theorem filesInsert_pendExt (cat : Catalog) (g : FileRow)
    (hg : g.status = Status.Pending) : PendExt cat (cat.filesInsert g) := by
  refine ⟨⟨⟨[g], rfl⟩, ⟨[], by simp [Catalog.filesInsert]⟩,
    ⟨[], by simp [Catalog.filesInsert]⟩⟩, ?_⟩
  intro f hf
  simp only [Catalog.filesInsert] at hf
  rcases List.mem_append.mp hf with h1 | h1
  · exact Or.inl h1
  · simp only [List.mem_singleton] at h1
    subst h1
    exact Or.inr hg

theorem chunksInsert_pendExt (cat : Catalog) (x : ChunkRow) :
    PendExt cat (cat.chunksInsert x) :=
  ⟨⟨⟨[], by simp [Catalog.chunksInsert]⟩, ⟨[x], rfl⟩,
    ⟨[], by simp [Catalog.chunksInsert]⟩⟩, fun g hg => Or.inl hg⟩

theorem fuseInsert_pendExt (cat : Catalog) (u : Nat) (p : List PathName) :
    PendExt cat (cat.fuseInsert u p) :=
  ⟨fuseInsert_extends cat u p,
    fun g hg => Or.inl ((fuseInsert_chunks cat u p).2.1 ▸ hg)⟩

theorem aggregatesInsert_pendExt (cat : Catalog) (a : AggregateRow) :
    PendExt cat (cat.aggregatesInsert a) :=
  ⟨⟨⟨[], by simp [Catalog.aggregatesInsert]⟩,
    ⟨[], by simp [Catalog.aggregatesInsert]⟩, ⟨[a], rfl⟩⟩,
    fun g hg => Or.inl hg⟩

theorem large_file_pendExt (cfg : CrawlConfig) (u fs count : Nat)
    (st : CrawlState) :
    PendExt st.cat (Crawl.large_file cfg st u fs count).cat :=
  ⟨large_file_extends cfg u fs count st,
    fun g hg => Or.inl (large_file_files cfg u fs count st ▸ hg)⟩

theorem new_aggregate_pendExt (st : CrawlState) (fs : Nat) :
    PendExt st.cat (Crawl.new_aggregate st fs).cat := by
  refine ⟨new_aggregate_extends st fs, ?_⟩
  intro g hg
  rw [new_aggregate_files] at hg
  rcases List.mem_append.mp hg with h1 | h1
  · exact Or.inl h1
  · simp only [List.mem_singleton] at h1
    subst h1
    exact Or.inr rfl

theorem get_aggregate_path_pendExt (cfg : CrawlConfig) (st : CrawlState)
    (fs : Nat) :
    PendExt st.cat (Crawl.get_aggregate_path cfg st fs).2.cat := by
  rw [Crawl.get_aggregate_path]
  cases st.current_aggregate with
  | none =>
    dsimp only
    exact new_aggregate_pendExt st fs
  | some a =>
    dsimp only
    by_cases hover : a.2 + fs > cfg.aggregate_size
    · rw [if_pos hover]
      exact new_aggregate_pendExt st fs
    · rw [if_neg hover]
      exact pendExt_refl _

theorem small_file_pendExt (cfg : CrawlConfig) (st : CrawlState)
    (p : List PathName) (fs : Nat) :
    PendExt st.cat (Crawl.small_file cfg st p fs).cat := by
  rw [Crawl.small_file]
  by_cases hl : (st.cat.aggregatesFindByFilePath p).isSome = true
  · rw [if_pos hl]
    exact pendExt_refl _
  · rw [if_neg hl]
    exact pendExt_trans (get_aggregate_path_pendExt cfg st fs)
      (aggregatesInsert_pendExt _ _)

theorem visit_file_pendExt (cfg : CrawlConfig) (st : CrawlState)
    (e : List PathName × Nat) :
    PendExt st.cat (Crawl.visit_file cfg st e).cat := by
  obtain ⟨p, N⟩ := e
  rw [Crawl.visit_file]
  by_cases hig : cfg.ignored p = true
  · rw [if_pos hig]
    exact pendExt_refl _
  · rw [if_neg hig]
    cases hfind : st.cat.filesFindByPath p with
    | some f =>
      dsimp only
      by_cases hsz : cfg.aggregate_min_size ≤ N
      · rw [if_pos hsz]
        exact large_file_pendExt cfg f.uuid N _ st
      · rw [if_neg hsz]
        exact small_file_pendExt cfg st f.path N
    | none =>
      dsimp only
      have hins : PendExt st.cat ((st.cat.filesInsert
          { uuid := st.next_uuid, path := p, size := N, sha256 := none,
            chunks := chunksCount cfg.chunk_size N,
            mode := if N < cfg.aggregate_min_size then Mode.Aggregated
              else Mode.Chunked,
            status := Status.Pending }).fuseInsert st.next_uuid p) :=
        pendExt_trans (filesInsert_pendExt _ _ rfl)
          (fuseInsert_pendExt _ _ _)
      by_cases hsz : cfg.aggregate_min_size ≤ N
      · rw [if_pos hsz]
        exact pendExt_trans hins (large_file_pendExt cfg st.next_uuid N _ _)
      · rw [if_neg hsz]
        exact pendExt_trans hins (small_file_pendExt cfg _ p N)

theorem doneComplete_pendExt (cfg : CrawlConfig)
    (tree : List (List PathName × Nat)) {cat cat' : Catalog}
    (hpe : PendExt cat cat') (hdc : DoneComplete cfg tree cat) :
    DoneComplete cfg tree cat' := by
  intro e he hig f hf hd i hi
  cases hold : cat.filesFindByPath e.1 with
  | some f0 =>
    have hsame := filesFindByPath_extends hpe.1 hold
    rw [hf] at hsame
    have hf0 : f0 = f := (Option.some.inj hsame).symm
    subst hf0
    exact chunksFind_isSome_extends hpe.1 (hdc e he hig f0 hold hd i hi)
  | none =>
    exfalso
    rw [Catalog.filesFindByPath] at hf hold
    have hmem : f ∈ cat'.files := List.mem_of_find?_eq_some hf
    rcases hpe.2 f hmem with h1 | h1
    · exact absurd (List.find?_some hf) (List.find?_eq_none.mp hold f h1)
    · rw [h1] at hd
      exact absurd hd (by decide)

theorem visit_file_statusInv (cfg : CrawlConfig) (st : CrawlState)
    (e : List PathName × Nat) (hinv : StatusInv st.cat)
    (hwf : UuidWF st.cat st.next_uuid)
    (hdc : cfg.ignored e.1 = false →
      ∀ f, st.cat.filesFindByPath e.1 = some f → f.status = Status.Done →
        ∀ i < chunksCount cfg.chunk_size e.2,
          (st.cat.chunksFindByFileUuidAndIndex f.uuid i).isSome = true) :
    StatusInv (Crawl.visit_file cfg st e).cat := by
  obtain ⟨p, N⟩ := e
  rw [Crawl.visit_file]
  by_cases hig : cfg.ignored p = true
  · rw [if_pos hig]
    exact hinv
  · rw [if_neg hig]
    have hig' : cfg.ignored p = false := by
      cases hb : cfg.ignored p
      · rfl
      · exact absurd hb hig
    cases hfind : st.cat.filesFindByPath p with
    | some f =>
      dsimp only
      by_cases hsz : cfg.aggregate_min_size ≤ N
      · rw [if_pos hsz]
        by_cases hfd : f.status = Status.Done
        · rw [large_file_id cfg f.uuid N (chunksCount cfg.chunk_size N) st
            (fun i hi => hdc hig' f hfind hfd i hi)]
          exact hinv
        · have hfp : f.status = Status.Pending := by
            cases hst : f.status
            · rfl
            · exact absurd hst hfd
          apply statusInv_large_file cfg f.uuid N _ st hinv
          intro g hg hgu
          have hfm : f ∈ st.cat.files := by
            rw [Catalog.filesFindByPath] at hfind
            exact List.mem_of_find?_eq_some hfind
          have hgf : g = f := nodup_map_inj hwf.2.2.1 g hg f hfm hgu
          rw [hgf]
          exact hfp
      · rw [if_neg hsz]
        exact statusInv_small_file cfg st f.path N hinv hwf
    | none =>
      dsimp only
      have hinv1 : StatusInv ((st.cat.filesInsert
          { uuid := st.next_uuid, path := p, size := N, sha256 := none,
            chunks := chunksCount cfg.chunk_size N,
            mode := if N < cfg.aggregate_min_size then Mode.Aggregated
              else Mode.Chunked,
            status := Status.Pending }).fuseInsert st.next_uuid p) := by
        refine statusInv_fuseInsert _ _ _
          (statusInv_filesInsert st.cat _ hinv rfl ?_)
        intro c hc
        have := hwf.2.1 c hc
        show c.file_uuid ≠ st.next_uuid
        omega
      have hwf1 : UuidWF ((st.cat.filesInsert
          { uuid := st.next_uuid, path := p, size := N, sha256 := none,
            chunks := chunksCount cfg.chunk_size N,
            mode := if N < cfg.aggregate_min_size then Mode.Aggregated
              else Mode.Chunked,
            status := Status.Pending }).fuseInsert st.next_uuid p)
          (st.next_uuid + 1) :=
        filesInsert_fuse_uuidWF st.cat _ p st.next_uuid hwf rfl
      by_cases hsz : cfg.aggregate_min_size ≤ N
      · rw [if_pos hsz]
        apply statusInv_large_file cfg st.next_uuid N _ _ hinv1
        intro g hg hgu
        rw [(fuseInsert_chunks _ _ _).2.1, Catalog.filesInsert] at hg
        rcases List.mem_append.mp hg with h1 | h1
        · have := hwf.1 g h1
          have h2 : g.uuid = st.next_uuid := hgu
          omega
        · simp only [List.mem_singleton] at h1
          subst h1
          rfl
      · rw [if_neg hsz]
        exact statusInv_small_file cfg _ p N hinv1 hwf1

theorem fold_visit_good (cfg : CrawlConfig)
    (tree : List (List PathName × Nat)) :
    ∀ (l : List (List PathName × Nat)) (st : CrawlState),
      (∀ e ∈ l, e ∈ tree) →
      StatusInv st.cat → UuidWF st.cat st.next_uuid →
      DoneComplete cfg tree st.cat →
      StatusInv ((l.foldl (Crawl.visit_file cfg) st)).cat ∧
      UuidWF ((l.foldl (Crawl.visit_file cfg) st)).cat
        ((l.foldl (Crawl.visit_file cfg) st)).next_uuid ∧
      DoneComplete cfg tree ((l.foldl (Crawl.visit_file cfg) st)).cat := by
  intro l
  induction l with
  | nil => intro st _ hinv hwf hdc; exact ⟨hinv, hwf, hdc⟩
  | cons e t ih =>
    intro st hsub hinv hwf hdc
    rw [List.foldl_cons]
    refine ih _ (fun x hx => hsub x (List.mem_cons_of_mem _ hx)) ?_ ?_ ?_
    · exact visit_file_statusInv cfg st e hinv hwf
        (fun hig f hf hd i hi =>
          hdc e (hsub e (List.mem_cons_self _ _)) hig f hf hd i hi)
    · exact (visit_file_uuidWF cfg st e hwf).1
    · exact doneComplete_pendExt cfg tree (visit_file_pendExt cfg st e) hdc

theorem pvisit_statusInv (cfg : CrawlConfig) (st : CrawlState)
    (e : List PathName × Nat) (hinv : StatusInv st.cat)
    (hwf : UuidWF st.cat st.next_uuid)
    (hdc : cfg.ignored e.1 = false →
      ∀ f, st.cat.filesFindByPath e.1 = some f → f.status = Status.Done →
        ∀ i < chunksCount cfg.chunk_size e.2,
          (st.cat.chunksFindByFileUuidAndIndex f.uuid i).isSome = true) :
    StatusInv (Push.visit_file cfg st e).cat := by
  obtain ⟨p, N⟩ := e
  rw [Push.visit_file]
  by_cases hig : cfg.ignored p = true
  · rw [if_pos hig]
    exact hinv
  · rw [if_neg hig]
    have hig' : cfg.ignored p = false := by
      cases hb : cfg.ignored p
      · rfl
      · exact absurd hb hig
    cases hfind : st.cat.filesFindByPath p with
    | some f =>
      dsimp only
      by_cases hfd : f.status = Status.Done
      · rw [large_file_id cfg f.uuid N (chunksCount cfg.chunk_size N) st
          (fun i hi => hdc hig' f hfind hfd i hi)]
        exact hinv
      · have hfp : f.status = Status.Pending := by
          cases hst : f.status
          · rfl
          · exact absurd hst hfd
        apply statusInv_large_file cfg f.uuid N _ st hinv
        intro g hg hgu
        have hfm : f ∈ st.cat.files := by
          rw [Catalog.filesFindByPath] at hfind
          exact List.mem_of_find?_eq_some hfind
        have hgf : g = f := nodup_map_inj hwf.2.2.1 g hg f hfm hgu
        rw [hgf]
        exact hfp
    | none =>
      dsimp only
      have hinv1 : StatusInv ((st.cat.filesInsert
          { uuid := st.next_uuid, path := p, size := N, sha256 := none,
            chunks := chunksCount cfg.chunk_size N, mode := Mode.Chunked,
            status := Status.Pending }).fuseInsert st.next_uuid p) := by
        refine statusInv_fuseInsert _ _ _
          (statusInv_filesInsert st.cat _ hinv rfl ?_)
        intro c hc
        have := hwf.2.1 c hc
        show c.file_uuid ≠ st.next_uuid
        omega
      apply statusInv_large_file cfg st.next_uuid N _ _ hinv1
      intro g hg hgu
      rw [(fuseInsert_chunks _ _ _).2.1, Catalog.filesInsert] at hg
      rcases List.mem_append.mp hg with h1 | h1
      · have := hwf.1 g h1
        have h2 : g.uuid = st.next_uuid := hgu
        omega
      · simp only [List.mem_singleton] at h1
        subst h1
        rfl

theorem pvisit_uuidWF (cfg : CrawlConfig) (st : CrawlState)
    (e : List PathName × Nat) (h : UuidWF st.cat st.next_uuid) :
    UuidWF (Push.visit_file cfg st e).cat
        (Push.visit_file cfg st e).next_uuid ∧
      st.next_uuid ≤ (Push.visit_file cfg st e).next_uuid := by
  obtain ⟨p, N⟩ := e
  rw [Push.visit_file]
  by_cases hig : cfg.ignored p = true
  · rw [if_pos hig]
    exact ⟨h, Nat.le_refl _⟩
  · rw [if_neg hig]
    cases hfind : st.cat.filesFindByPath p with
    | some f =>
      dsimp only
      have hfu : f.uuid < st.next_uuid :=
        h.1 f (List.mem_of_find?_eq_some hfind)
      exact large_file_uuidWF cfg f.uuid N _ st h hfu
    | none =>
      dsimp only
      have hwf1 : UuidWF ((st.cat.filesInsert
          { uuid := st.next_uuid, path := p, size := N, sha256 := none,
            chunks := chunksCount cfg.chunk_size N, mode := Mode.Chunked,
            status := Status.Pending }).fuseInsert st.next_uuid p)
          (st.next_uuid + 1) :=
        filesInsert_fuse_uuidWF st.cat _ p st.next_uuid h rfl
      have := large_file_uuidWF cfg st.next_uuid N
        (chunksCount cfg.chunk_size N)
        { cat := (st.cat.filesInsert
            { uuid := st.next_uuid, path := p, size := N, sha256 := none,
              chunks := chunksCount cfg.chunk_size N, mode := Mode.Chunked,
              status := Status.Pending }).fuseInsert st.next_uuid p,
          next_uuid := st.next_uuid + 1,
          current_aggregate := st.current_aggregate }
        hwf1 (Nat.lt_succ_self _)
      exact ⟨this.1, Nat.le_trans (Nat.le_succ _) this.2⟩

theorem pvisit_pendExt (cfg : CrawlConfig) (st : CrawlState)
    (e : List PathName × Nat) :
    PendExt st.cat (Push.visit_file cfg st e).cat := by
  obtain ⟨p, N⟩ := e
  rw [Push.visit_file]
  by_cases hig : cfg.ignored p = true
  · rw [if_pos hig]
    exact pendExt_refl _
  · rw [if_neg hig]
    cases hfind : st.cat.filesFindByPath p with
    | some f =>
      dsimp only
      exact large_file_pendExt cfg f.uuid N _ st
    | none =>
      dsimp only
      exact pendExt_trans
        (pendExt_trans (filesInsert_pendExt _ _ rfl)
          (fuseInsert_pendExt _ _ _))
        (large_file_pendExt cfg st.next_uuid N _ _)

theorem pvisit_done (cfg : CrawlConfig) (st : CrawlState)
    (e : List PathName × Nat) :
    WalkDone cfg (Push.visit_file cfg st e).cat e := by
  obtain ⟨p, N⟩ := e
  rw [Push.visit_file]
  by_cases hig : cfg.ignored p = true
  · rw [if_pos hig]
    exact Or.inl hig
  · rw [if_neg hig]
    cases hfind : st.cat.filesFindByPath p with
    | some f =>
      dsimp only
      refine Or.inr ⟨f, ?_, ?_⟩
      · exact filesFindByPath_extends (large_file_extends cfg f.uuid N _ st)
          hfind
      · intro i hi
        exact large_file_complete cfg f.uuid N _ st i hi
    | none =>
      dsimp only
      have hfind1 : (((st.cat.filesInsert
          { uuid := st.next_uuid, path := p, size := N, sha256 := none,
            chunks := chunksCount cfg.chunk_size N, mode := Mode.Chunked,
            status := Status.Pending }).fuseInsert
              st.next_uuid p).filesFindByPath p) = some
          { uuid := st.next_uuid, path := p, size := N, sha256 := none,
            chunks := chunksCount cfg.chunk_size N, mode := Mode.Chunked,
            status := Status.Pending } := by
        rw [Catalog.filesFindByPath, (fuseInsert_chunks _ _ _).2.1,
          Catalog.filesInsert, List.find?_append]
        rw [show st.cat.files.find? (fun f => f.path == p) = none from hfind]
        simp
      refine Or.inr ⟨_, filesFindByPath_extends
        (large_file_extends cfg st.next_uuid N _ _) hfind1, ?_⟩
      intro i hi
      exact large_file_complete cfg st.next_uuid N _ _ i hi

theorem walkDone_extends {cfg : CrawlConfig} {cat cat' : Catalog}
    {e : List PathName × Nat} (hext : CatExtends cat cat')
    (hd : WalkDone cfg cat e) : WalkDone cfg cat' e := by
  rcases hd with h1 | ⟨f, hf, hidx⟩
  · exact Or.inl h1
  · exact Or.inr ⟨f, filesFindByPath_extends hext hf,
      fun i hi => chunksFind_isSome_extends hext (hidx i hi)⟩

theorem fold_pwalk_extends (cfg : CrawlConfig) :
    ∀ (l : List (List PathName × Nat)) (st : CrawlState),
      CatExtends st.cat ((l.foldl (Push.visit_file cfg) st)).cat := by
  intro l
  induction l with
  | nil => intro st; exact catExtends_refl _
  | cons e t ih =>
    intro st
    rw [List.foldl_cons]
    exact catExtends_trans (pvisit_pendExt cfg st e).1
      (ih (Push.visit_file cfg st e))

theorem fold_pwalk_done (cfg : CrawlConfig) :
    ∀ (l : List (List PathName × Nat)) (st : CrawlState),
      ∀ e ∈ l, WalkDone cfg ((l.foldl (Push.visit_file cfg) st)).cat e := by
  intro l
  induction l with
  | nil => intro st e he; simp at he
  | cons x t ih =>
    intro st e he
    rw [List.foldl_cons]
    rcases List.mem_cons.mp he with rfl | he'
    · exact walkDone_extends (fold_pwalk_extends cfg t _)
        (pvisit_done cfg st e)
    · exact ih (Push.visit_file cfg st x) e he'

theorem fold_pwalk_good (cfg : CrawlConfig)
    (tree : List (List PathName × Nat)) :
    ∀ (l : List (List PathName × Nat)) (st : CrawlState),
      (∀ e ∈ l, e ∈ tree) →
      StatusInv st.cat → UuidWF st.cat st.next_uuid →
      DoneComplete cfg tree st.cat →
      StatusInv ((l.foldl (Push.visit_file cfg) st)).cat ∧
      UuidWF ((l.foldl (Push.visit_file cfg) st)).cat
        ((l.foldl (Push.visit_file cfg) st)).next_uuid ∧
      DoneComplete cfg tree ((l.foldl (Push.visit_file cfg) st)).cat := by
  intro l
  induction l with
  | nil => intro st _ hinv hwf hdc; exact ⟨hinv, hwf, hdc⟩
  | cons e t ih =>
    intro st hsub hinv hwf hdc
    rw [List.foldl_cons]
    refine ih _ (fun x hx => hsub x (List.mem_cons_of_mem _ hx)) ?_ ?_ ?_
    · exact pvisit_statusInv cfg st e hinv hwf
        (fun hig f hf hd i hi =>
          hdc e (hsub e (List.mem_cons_self _ _)) hig f hf hd i hi)
    · exact (pvisit_uuidWF cfg st e hwf).1
    · exact doneComplete_pendExt cfg tree (pvisit_pendExt cfg st e) hdc

theorem walkDone_pushReach {cfg : CrawlConfig} {cat cat' : Catalog}
    {e : List PathName × Nat} (hR : PushReach cat cat')
    (hd : WalkDone cfg cat e) : WalkDone cfg cat' e := by
  obtain ⟨F, H, hF, hH, e1, e2, e3⟩ := hR
  rcases hd with h1 | ⟨f, hf, hidx⟩
  · exact Or.inl h1
  · refine Or.inr ⟨F f, ?_, ?_⟩
    · rw [Catalog.filesFindByPath, e1, filesFind_map hF]
      rw [show cat.files.find? (fun g => g.path == e.1) = some f from hf]
      rfl
    · intro i hi
      have := hidx i hi
      rw [Catalog.chunksFindByFileUuidAndIndex, e2, (hF f).1,
        chunksFind_map hH]
      obtain ⟨c, hc⟩ := Option.isSome_iff_exists.mp this
      rw [show cat.chunks.find?
        (fun c => c.file_uuid == f.uuid && c.idx == i) = some c from hc]
      rfl

theorem doneComplete_of_walkDone (cfg : CrawlConfig)
    (tree : List (List PathName × Nat)) (cat : Catalog)
    (h : ∀ e ∈ tree, WalkDone cfg cat e) : DoneComplete cfg tree cat := by
  intro e he hig f hf hd i hi
  rcases h e he with h1 | ⟨f', hf', hidx⟩
  · rw [hig] at h1
    exact absurd h1 (by decide)
  · obtain rfl : f' = f := Option.some.inj (hf'.symm.trans hf)
    exact hidx i hi

theorem applyOp_good (cfg : CrawlConfig) (tree : List (List PathName × Nat))
    (fsrc : List PathName → Option (List Nat)) (s : SysState) (op : Op)
    (h : GoodState cfg tree s) :
    GoodState cfg tree (applyOp cfg tree fsrc s op) := by
  obtain ⟨hinv, hwf, hdc⟩ := h
  cases op with
  | crawl =>
    show GoodState cfg tree { s with st := Crawl.run cfg tree s.st }
    rw [GoodState, Crawl.run]
    exact fold_visit_good cfg tree tree
      { s.st with current_aggregate := none }
      (fun e he => he) hinv hwf hdc
  | push =>
    show GoodState cfg tree
      { st := (Push.execute cfg tree fsrc s.st s.store).1,
        store := (Push.execute cfg tree fsrc s.st s.store).2.store }
    rw [Push.execute]
    dsimp only
    obtain ⟨hinv1, hwf1, -⟩ := fold_pwalk_good cfg tree tree s.st
      (fun e he => he) hinv hwf hdc
    have hwd1 : ∀ e ∈ tree,
        WalkDone cfg (Push.walk cfg tree s.st).cat e :=
      fold_pwalk_done cfg tree s.st
    have hreach := push_run_reach fsrc (Push.walk cfg tree s.st).cat s.store
    refine ⟨?_, ?_, ?_⟩
    · exact push_run_statusInv fsrc (Push.walk cfg tree s.st).cat s.store
        hwf1.2.2.2 hinv1
    · exact uuidWF_pushReach hreach hwf1
    · exact doneComplete_of_walkDone cfg tree _
        (fun e he => walkDone_pushReach hreach (hwd1 e he))

theorem foldl_ops_good (cfg : CrawlConfig)
    (tree : List (List PathName × Nat))
    (fsrc : List PathName → Option (List Nat)) :
    ∀ (ops : List Op) (s : SysState), GoodState cfg tree s →
      GoodState cfg tree (ops.foldl (applyOp cfg tree fsrc) s) := by
  intro ops
  induction ops with
  | nil => intro s h; exact h
  | cons op t ih =>
    intro s h
    rw [List.foldl_cons]
    exact ih _ (applyOp_good cfg tree fsrc s op h)

theorem runOps_good (cfg : CrawlConfig) (tree : List (List PathName × Nat))
    (fsrc : List PathName → Option (List Nat)) (ops : List Op) :
    GoodState cfg tree (runOps cfg tree fsrc ops) :=
  foldl_ops_good cfg tree fsrc ops emptySys
    ⟨statusInv_empty, uuidWF_empty _,
      fun e _ _ f hf => Option.noConfusion hf⟩

theorem goodState_statusInv {cfg : CrawlConfig}
    {tree : List (List PathName × Nat)} {s : SysState}
    (h : GoodState cfg tree s) : StatusInv s.st.cat :=
  h.1


/-- C5: after any sequence of crawl and push operations starting from
the empty catalog, a file row that has at least one chunk row is Done
exactly when all of its chunk rows are Done. The claim's further
statement that the biconditional also covers a zero-chunk file is
refuted by zero_size_chunked_file_stays_pending below: a size-0
Chunked file gets no chunk rows and push never marks it Done. -/
theorem file_done_iff_chunks_done_after_ops (cfg : CrawlConfig)
    (tree : List (List PathName × Nat))
    (fsrc : List PathName → Option (List Nat)) (ops : List Op)
    (f : FileRow) (hf : f ∈ (runOps cfg tree fsrc ops).st.cat.files)
    (hex : ∃ c ∈ (runOps cfg tree fsrc ops).st.cat.chunks,
      c.file_uuid = f.uuid) :
    f.status = Status.Done ↔
      ∀ c ∈ (runOps cfg tree fsrc ops).st.cat.chunks,
        c.file_uuid = f.uuid → c.status = Status.Done := by
  have hinv := goodState_statusInv (runOps_good cfg tree fsrc ops)
  exact ⟨fun hd => hinv.1 f hf hd, fun hall => hinv.2 f hf hex hall⟩

theorem file_done_iff_chunks_done_after_ops_witness :
    fileDoneEx ∈
      (runOps cfgEx treeEx fsrcEx [Op.crawl, Op.push]).st.cat.files ∧
    (fileDoneEx.status = Status.Done ↔
      ∀ c ∈ (runOps cfgEx treeEx fsrcEx [Op.crawl, Op.push]).st.cat.chunks,
        c.file_uuid = fileDoneEx.uuid → c.status = Status.Done) :=
  ⟨by decide, file_done_iff_chunks_done_after_ops cfgEx treeEx fsrcEx
    [Op.crawl, Op.push] fileDoneEx (by decide)
    ⟨chunkDoneEx, by decide, by decide⟩⟩

/-- A size-0 file planned in Chunked mode gets zero chunk rows, so all
of its chunks are vacuously Done after a push run, yet its file row is
still Pending: the Done-iff-all-chunks-Done biconditional fails for
zero-chunk files. -/
theorem zero_size_chunked_file_stays_pending :
    (runOps cfgEx treeEmpty fsrcEmpty [Op.crawl, Op.push]).st.cat.chunks
      = [] ∧
    ∃ f ∈ (runOps cfgEx treeEmpty fsrcEmpty
        [Op.crawl, Op.push]).st.cat.files,
      f.mode = Mode.Chunked ∧ f.size = 0 ∧ f.status = Status.Pending := by
  constructor
  · decide
  · exact ⟨fileZeroEx, by decide, rfl, rfl, rfl⟩

/-- C1: the pull job fetches the stored object keyed by the file's
uuid, not the chunk row's uuid (pull.rs hoists let uuid = file.uuid at
line 225 and get(uuid) inside the per-chunk closure at line 231 reads
that binding). In the single-file scenario push stores the two chunk
objects under uuids 1 and 2 and nothing under the file's uuid 0, so
every pull job fails its store lookup, the writer receives nothing,
and the restore returns the sparse zero bytes instead of the source
bytes 10, 11, 12. -/
theorem pull_restore_fetches_file_uuid :
    Pull.restore pushEx.store fileDoneEx
        (pushEx.cat.chunksFindByFileUuid fileDoneEx.uuid) = [0, 0, 0] ∧
    fsrcEx [PathName.str "a", PathName.str "b.bin"] = some [10, 11, 12] ∧
    storeGet pushEx.store fileDoneEx.uuid = none ∧
    (storeGet pushEx.store 1).isSome = true ∧
    (storeGet pushEx.store 2).isSome = true := by
  decide

/-- C4: the push controller never builds a tar archive for an
Aggregate file. Its walk prelude (push.rs lines 182-268), which has no
mode branch, inserts a chunk row for each 10-byte Aggregated member
(crawl created none), and the processing phase then uploads those
members individually; the Aggregate group file's synthetic tar path is
never visited and cannot be opened, so its single chunk row keeps
payload_size 0 and stays Pending, nothing is stored under that chunk's
uuid 3, and the run uploads the three member objects 6, 7, 8 instead
of one archive object. -/
theorem aggregate_push_no_tar :
    pushAgFull.2.uploads = [6, 7, 8] ∧
    pushAgFull.2.store.length = 3 ∧
    storeGet pushAgFull.2.store 3 = none ∧
    (∃ f ∈ pushAgFull.2.cat.files, f.mode = Mode.Aggregate ∧
      f.status = Status.Pending ∧
      ∃ c ∈ pushAgFull.2.cat.chunks, c.file_uuid = f.uuid ∧
        c.uuid = 3 ∧ c.status = Status.Pending ∧ c.payload_size = 0) := by
  decide

theorem filter_pending_mark (u : Nat) (sha : Option (List Nat)) (sz : Nat) :
    ∀ (rows : List ChunkRow) (c : ChunkRow) (t : List ChunkRow),
      (rows.map (fun x => x.uuid)).Nodup →
      rows.filter (fun x => x.file_uuid == u && x.status == Status.Pending)
        = c :: t →
      (rows.map (markChunkF c.uuid sha sz)).filter
        (fun x => x.file_uuid == u && x.status == Status.Pending) = t := by
  intro rows
  induction rows with
  | nil =>
    intro c t _ hf
    exact absurd hf (by simp)
  | cons r rs ih =>
    intro c t hnd hf
    rw [List.map_cons, List.nodup_cons] at hnd
    rw [List.filter_cons] at hf
    rw [List.map_cons, List.filter_cons]
    by_cases hp : (r.file_uuid == u && r.status == Status.Pending) = true
    · rw [if_pos hp] at hf
      injection hf with h1 h2
      subst h1
      have hm : ((markChunkF r.uuid sha sz r).file_uuid == u &&
          (markChunkF r.uuid sha sz r).status == Status.Pending) = false := by
        rw [markChunkF_done r.uuid sha sz r rfl]
        simp
      rw [if_neg (by simp [hm])]
      have hid : ∀ x ∈ rs, markChunkF r.uuid sha sz x = x := by
        intro x hx
        refine markChunkF_ne _ _ _ _ ?_
        intro he
        exact hnd.1 (he ▸ List.mem_map_of_mem _ hx)
      calc (rs.map (markChunkF r.uuid sha sz)).filter
            (fun x => x.file_uuid == u && x.status == Status.Pending)
          = rs.filter
            (fun x => x.file_uuid == u && x.status == Status.Pending) := by
            rw [List.map_congr_left hid, List.map_id']
        _ = t := h2
    · rw [if_neg hp] at hf
      have hcm : c ∈ rs :=
        List.mem_of_mem_filter (hf ▸ List.mem_cons_self c t)
      have hru : r.uuid ≠ c.uuid := by
        intro he
        exact hnd.1 (he ▸ List.mem_map_of_mem _ hcm)
      rw [markChunkF_ne _ _ _ _ hru, if_neg hp]
      exact ih c t hnd.2 hf

theorem foldl_resume (f : FileRow) (content : List Nat) :
    ∀ (l : List ChunkRow) (acc : PushAcc),
      (∀ x ∈ acc.cat.chunks, x.file_uuid = f.uuid) →
      ((acc.cat.chunks.map (fun x => x.uuid)).Nodup) →
      (acc.cat.chunks.filter (fun x => x.file_uuid == f.uuid &&
        x.status == Status.Pending)) = l →
      (∀ x ∈ l, ((content.drop x.offset).take x.payload_size).length
        = x.payload_size) →
      ((l.foldl (Push.process_chunk f content) acc).uploads =
        acc.uploads ++ l.map (fun c => c.uuid)) ∧
      ((l = [] ∧ (l.foldl (Push.process_chunk f content) acc).cat.files
          = acc.cat.files) ∨
       (∃ dg, (l.foldl (Push.process_chunk f content) acc).cat.files
          = acc.cat.files.map (markFileF f.uuid dg))) := by
  intro l
  induction l with
  | nil =>
    intro acc _ _ _ _
    exact ⟨by simp, Or.inl ⟨rfl, rfl⟩⟩
  | cons c t ih =>
    intro acc H1 H2 H3 H4
    have hc_in : c ∈ acc.cat.chunks.filter (fun x => x.file_uuid == f.uuid &&
        x.status == Status.Pending) := by
      rw [H3]
      exact List.mem_cons_self c t
    have hcm := (List.mem_filter.mp hc_in).1
    have hcp := (List.mem_filter.mp hc_in).2
    rw [Bool.and_eq_true] at hcp
    have hcfu : c.file_uuid = f.uuid := beq_iff_eq.mp hcp.1
    have hread : ((content.drop c.offset).take c.payload_size).length
        = c.payload_size := H4 c (List.mem_cons_self c t)
    have hfilter' : ((acc.cat.chunks.map (markChunkF c.uuid
        (some ((content.drop c.offset).take c.payload_size))
        ((content.drop c.offset).take c.payload_size).length)).filter
        (fun x => x.file_uuid == f.uuid && x.status == Status.Pending))
        = t := filter_pending_mark f.uuid _ _ acc.cat.chunks c t H2 H3
    have hmapf : ∀ x ∈ acc.cat.chunks.map (markChunkF c.uuid
        (some ((content.drop c.offset).take c.payload_size))
        ((content.drop c.offset).take c.payload_size).length),
        x.file_uuid = f.uuid := by
      intro x hx
      obtain ⟨y, hy, rfl⟩ := List.mem_map.mp hx
      rw [(markChunkF_shape _ _ _ y).2.1]
      exact H1 y hy
    rw [List.foldl_cons, Push.process_chunk]
    rw [if_neg (fun h => h hread)]
    dsimp only
    cases t with
    | nil =>
      have hall : ((Catalog.chunksFindByFileUuid
          (acc.cat.chunksMarkDone c.uuid
            (some ((content.drop c.offset).take c.payload_size))
            ((content.drop c.offset).take c.payload_size).length)
          c.file_uuid).all (fun s => s.status == Status.Done)) = true := by
        rw [List.all_eq_true]
        intro s hs
        rw [Catalog.chunksFindByFileUuid] at hs
        simp only [Catalog.chunksMarkDone] at hs
        have hs1 := (List.mem_filter.mp hs).1
        cases hst : s.status with
        | Done => rfl
        | Pending =>
          exfalso
          have hsp : s ∈ (acc.cat.chunks.map (markChunkF c.uuid
              (some ((content.drop c.offset).take c.payload_size))
              ((content.drop c.offset).take c.payload_size).length)).filter
              (fun x => x.file_uuid == f.uuid &&
                x.status == Status.Pending) := by
            refine List.mem_filter.mpr ⟨hs1, ?_⟩
            rw [Bool.and_eq_true]
            exact ⟨beq_iff_eq.mpr (hmapf s hs1), by rw [hst]; rfl⟩
          rw [hfilter'] at hsp
          exact absurd hsp (List.not_mem_nil s)
      rw [if_pos hall]
      simp only [List.foldl_nil]
      refine ⟨rfl, Or.inr ⟨((acc.hash.update
        ((content.drop c.offset).take c.payload_size) c.idx).finalize).1,
        ?_⟩⟩
      show (Catalog.filesMarkDone _ c.file_uuid _).files = _
      rw [Catalog.filesMarkDone, hcfu]
      rfl
    | cons c' t'' =>
      have hc'_in : c' ∈ (acc.cat.chunks.map (markChunkF c.uuid
          (some ((content.drop c.offset).take c.payload_size))
          ((content.drop c.offset).take c.payload_size).length)).filter
          (fun x => x.file_uuid == f.uuid && x.status == Status.Pending) := by
        rw [hfilter']
        exact List.mem_cons_self c' t''
      have hc'm := (List.mem_filter.mp hc'_in).1
      have hc'p := (List.mem_filter.mp hc'_in).2
      rw [Bool.and_eq_true] at hc'p
      have hall : ¬ ((Catalog.chunksFindByFileUuid
          (acc.cat.chunksMarkDone c.uuid
            (some ((content.drop c.offset).take c.payload_size))
            ((content.drop c.offset).take c.payload_size).length)
          c.file_uuid).all (fun s => s.status == Status.Done)) = true := by
        intro h
        rw [List.all_eq_true] at h
        have hc'sib : c' ∈ Catalog.chunksFindByFileUuid
            (acc.cat.chunksMarkDone c.uuid
              (some ((content.drop c.offset).take c.payload_size))
              ((content.drop c.offset).take c.payload_size).length)
            c.file_uuid := by
          rw [Catalog.chunksFindByFileUuid]
          simp only [Catalog.chunksMarkDone]
          refine List.mem_filter.mpr ⟨hc'm, ?_⟩
          rw [hcfu]
          exact hc'p.1
        have hd := h c' hc'sib
        have hp' : c'.status = Status.Pending := beq_iff_eq.mp hc'p.2
        rw [hp'] at hd
        exact absurd hd (by decide)
      rw [if_neg hall]
      have ihr := ih (PushAcc.mk
        (acc.cat.chunksMarkDone c.uuid
          (some ((content.drop c.offset).take c.payload_size))
          ((content.drop c.offset).take c.payload_size).length)
        (storePut acc.store c.uuid (ClearChunk.new c.uuid
          (Metadata.mk (pathBytes f.path) c.idx f.chunks c.offset)
          ((content.drop c.offset).take c.payload_size)).encode)
        (acc.uploads ++ [c.uuid])
        (acc.hash.update
          ((content.drop c.offset).take c.payload_size) c.idx))
        hmapf
        (by
          show ((acc.cat.chunks.map (markChunkF c.uuid
            (some ((content.drop c.offset).take c.payload_size))
            ((content.drop c.offset).take c.payload_size).length)).map
              (fun x => x.uuid)).Nodup
          rw [List.map_map]
          have he : acc.cat.chunks.map ((fun x => x.uuid) ∘ markChunkF c.uuid
              (some ((content.drop c.offset).take c.payload_size))
              ((content.drop c.offset).take c.payload_size).length)
              = acc.cat.chunks.map (fun x => x.uuid) :=
            List.map_congr_left (fun a _ => (markChunkF_shape _ _ _ a).1)
          rw [he]
          exact H2)
        hfilter'
        (fun x hx => H4 x (List.mem_cons_of_mem _ hx))
      refine ⟨?_, ?_⟩
      · rw [ihr.1]
        show (acc.uploads ++ [c.uuid]) ++ (c' :: t'').map (fun x => x.uuid)
          = acc.uploads ++ (c.uuid :: (c' :: t'').map (fun x => x.uuid))
        rw [List.append_assoc]
        rfl
      · rcases ihr.2 with ⟨ht0, -⟩ | ⟨dg, hfe⟩
        · exact absurd ht0 (List.cons_ne_nil c' t'')
        · exact Or.inr ⟨dg, hfe⟩

/-- C6: a push run over a single-file catalog whose chunk rows are
partly Done from an earlier terminated run uploads exactly the
still-Pending chunk rows, in catalog order, and then marks the file
Done. The recorded digest is whatever the per-file hasher finalizes
to; the claim's further statement that it equals the digest of the
whole file is refuted by resumed_push_sha256_mismatch below, because
the hasher is only fed the freshly pushed chunks. -/
theorem resumed_push_pending_only (fsrc : List PathName → Option (List Nat))
    (cat : Catalog) (store : List (Nat × List Nat)) (f : FileRow)
    (content : List Nat)
    (hfiles : cat.files = [f])
    (hst : f.status = Status.Pending)
    (hsrc : fsrc f.path = some content)
    (hfu : ∀ x ∈ cat.chunks, x.file_uuid = f.uuid)
    (hnd : (cat.chunks.map (fun x => x.uuid)).Nodup)
    (hread : ∀ x ∈ cat.chunks, x.status = Status.Pending →
      ((content.drop x.offset).take x.payload_size).length = x.payload_size)
    (hne : cat.chunks.filter (fun x => x.file_uuid == f.uuid &&
      x.status == Status.Pending) ≠ []) :
    (Push.run fsrc cat store).uploads = (cat.chunks.filter
      (fun x => x.file_uuid == f.uuid && x.status == Status.Pending)).map
      (fun c => c.uuid) ∧
    ∃ dg, (Push.run fsrc cat store).cat.files =
      [{ f with status := Status.Done, sha256 := dg }] := by
  rw [Push.run, hfiles]
  have hfilt : [f].filter (fun g => g.status == Status.Pending) = [f] := by
    rw [List.filter_cons, if_pos (by rw [hst]; rfl)]
    rfl
  rw [hfilt]
  simp only [List.foldl_cons, List.foldl_nil]
  rw [Push.process_file, hsrc]
  dsimp only
  rw [Catalog.chunksFindByFileUuidAndStatus]
  obtain ⟨c, t, hL⟩ := List.exists_cons_of_ne_nil hne
  rw [hL]
  have hres := foldl_resume f content (c :: t)
    (PushAcc.mk cat store [] ChunkedSha256.new) hfu hnd hL
    (fun x hx => by
      rw [← hL] at hx
      have hxm := (List.mem_filter.mp hx).1
      have hxp := (List.mem_filter.mp hx).2
      rw [Bool.and_eq_true] at hxp
      exact hread x hxm (beq_iff_eq.mp hxp.2))
  constructor
  · rw [hres.1]
    rfl
  · rcases hres.2 with ⟨h0, -⟩ | ⟨dg, hfe⟩
    · exact absurd h0 (List.cons_ne_nil c t)
    · refine ⟨dg, ?_⟩
      rw [hfe]
      show cat.files.map (markFileF f.uuid dg) = _
      rw [hfiles]
      simp only [List.map_cons, List.map_nil]
      congr 1
      simp [markFileF]

theorem resumed_push_pending_only_witness :
    (Push.run fsrcResume catResume []).uploads =
      (catResume.chunks.filter (fun x => x.file_uuid == fileResume.uuid &&
        x.status == Status.Pending)).map (fun c => c.uuid) ∧
    ∃ dg, (Push.run fsrcResume catResume []).cat.files =
      [{ fileResume with status := Status.Done, sha256 := dg }] :=
  resumed_push_pending_only fsrcResume catResume [] fileResume [20, 21, 22]
    rfl rfl (by decide) (by decide) (by decide) (by decide) (by decide)

/-- C6 counterexample: the resumed run feeds the per-file hasher only
the two still-Pending chunks and never block 0, so the hasher is not
ready at finalize and the digest recorded on the Done file is the
not-ready result (modelled none, the empty hex string in the source)
rather than the digest of the whole content 20, 21, 22 (modelled
some of the byte stream). -/
theorem resumed_push_sha256_mismatch :
    (Push.run fsrcResume catResume []).uploads = [2, 3] ∧
    (Push.run fsrcResume catResume []).cat.files =
      [{ fileResume with status := Status.Done, sha256 := none }] ∧
    fsrcResume fileResume.path = some [20, 21, 22] ∧
    (none : Option (List Nat)) ≠ some [20, 21, 22] := by
  decide

end Fs2cloud
